import Mathlib

/-!
# Verification of the ai-translator core (translator.py, main.py)

A shallow embedding of the repository's pure core in Lean 4:

* `extract_html_tags` / `restore_img_tags` — tag masking and restoration
  (translator.py lines 61-85 and 336-346);
* `split_text_into_chunks_with_tags` — token-aware chunking
  (translator.py lines 25-58);
* `file_to_jsonl` — batch-request packing (translator.py lines 88-192);
* `create_all_batches` / `monitor_and_download_results` — the job
  orchestrator (main.py lines 30-57 and 60-148).

Python strings are modelled as `List Char`.  The external tokenizer
(`tiktoken`) is modelled as a function parameter, as the specification
describes it ("a pluggable tokenizer").  Python's `max_tokens * 0.9`
float comparison against an integer sum is modelled exactly as
`10 * sum > 9 * max_tokens` over `Int`; for the magnitudes the program
uses the two are equivalent (the float product of an integer below 2^49
with the double nearest 0.9 never crosses an integer boundary).
`\w` and whitespace are modelled over ASCII.
-/

namespace AiTranslator

/-! ## Decimal digit strings -/

/-- The character of a decimal digit (`0 ≤ n ≤ 9`). -/
def digitChar (n : Nat) : Char :=
  match n with
  | 0 => '0' | 1 => '1' | 2 => '2' | 3 => '3' | 4 => '4'
  | 5 => '5' | 6 => '6' | 7 => '7' | 8 => '8' | _ => '9'

/-- Decimal digits of `n`, most significant first; `fuel`-structured
    (fuel `n` suffices since `n / 10 < n` for `n ≥ 10`). -/
def digsF : Nat → Nat → List Char
  | 0, n => [digitChar n]
  | f + 1, n => if n < 10 then [digitChar n] else digsF f (n / 10) ++ [digitChar (n % 10)]

/-- Decimal digit string of a natural number (e.g. `digs 12 = ['1','2']`). -/
def digs (n : Nat) : List Char := digsF n n

/-- Numeric value of a digit string (what Python's `int` does). -/
def valD (s : List Char) : Nat := s.foldl (fun a c => 10 * a + (c.toNat - 48)) 0

/-! ## Placeholder strings and string utilities -/

/-- The 6-character placeholder marker that opens every placeholder. -/
def marker : List Char := ['{', '{', 't', 'a', 'g', '_']

/-- The placeholder string for id `k`: what Python's
    `f"{{{{tag_{k}}}}}"` produces. -/
def idString (k : Nat) : List Char := marker ++ digs k ++ ['}', '}']

/-- Does `needle` occur as a contiguous substring of `hay`
    (Python's `needle in hay`)?  Executable. -/
def containsB (needle hay : List Char) : Bool :=
  match hay with
  | [] => needle.isEmpty
  | _ :: cs => needle.isPrefixOf hay || containsB needle cs

/-- One occurrence of `p` as a contiguous substring of `s`. -/
def Infx (p s : List Char) : Prop := ∃ x y, s = x ++ p ++ y

/-- Python's `text.replace(pat, rep)`: replace all non-overlapping
    occurrences of `pat`, left to right, without rescanning `rep`.
    Fueled; `fuel ≥ s.length` suffices when `pat ≠ []`. -/
def replaceF : Nat → List Char → List Char → List Char → List Char
  | 0, s, _, _ => s
  | f + 1, s, pat, rep =>
    if pat.isEmpty then s
    else if pat.isPrefixOf s then rep ++ replaceF f (s.drop pat.length) pat rep
    else
      match s with
      | [] => []
      | c :: cs => c :: replaceF f cs pat rep

/-- `text.replace(pat, rep)` with enough fuel. -/
def pyReplace (s pat rep : List Char) : List Char := replaceF s.length s pat rep

/-- Python's `.strip()`: drop whitespace from both ends (ASCII model). -/
def pyStrip (s : List Char) : List Char :=
  ((s.dropWhile Char.isWhitespace).reverse.dropWhile Char.isWhitespace).reverse

/-! ## TagExtractor: `extract_html_tags` (translator.py 61-85)

The pattern `<[^>]+>|\n|\"|\b\d+\|\|\|\d+\b|\b\d+\|\|\|\d+\w*` is scanned
left to right (Python `re.sub` semantics: at each position the ordered
alternation is tried; on a match the scan resumes after it).  `\w` and
`\b` are modelled over ASCII word characters. -/

/-- ASCII model of Python's `\w` (word character). -/
def isWordChar (c : Char) : Bool := c.isAlphanum || c == '_'

/-- Is there a word boundary between the previous character and a word
    character at the current position? (`none` = start of string.) -/
def boundaryBefore : Option Char → Bool
  | none => true
  | some c => !(isWordChar c)

/-- Is there a word boundary after a word character when the rest of the
    input is `r`? -/
def boundaryAfter : List Char → Bool
  | [] => true
  | c :: _ => !(isWordChar c)

/-- `<[^>]+>`: an angle-bracket span (greedy `[^>]+`, i.e. up to the
    first following `>`, at least one character inside). -/
def matchAngle (s : List Char) : Option (List Char × List Char) :=
  if s.take 1 = ['<'] then
    let rest := s.drop 1
    let body := rest.takeWhile (fun c => c ≠ '>')
    let r' := rest.dropWhile (fun c => c ≠ '>')
    if r'.take 1 = ['>'] then
      if body.isEmpty then none else some ('<' :: (body ++ ['>']), r'.drop 1)
    else none
  else none

/-- `\n` as a single-character alternative. -/
def matchNl (s : List Char) : Option (List Char × List Char) :=
  if s.take 1 = ['\n'] then some (['\n'], s.drop 1) else none

/-- `"` as a single-character alternative. -/
def matchQuote (s : List Char) : Option (List Char × List Char) :=
  if s.take 1 = ['"'] then some (['"'], s.drop 1) else none

/-- `\b\d+\|\|\|\d+\b` tried first, else `\b\d+\|\|\|\d+\w*`
    (ordered alternation; greedy `\d+`/`\w*` need no backtracking here
    because a digit run cannot extend past `|` or `}`). -/
def matchNum (prev : Option Char) (s : List Char) : Option (List Char × List Char) :=
  if !boundaryBefore prev then none
  else
    let d1 := s.takeWhile Char.isDigit
    let r1 := s.dropWhile Char.isDigit
    if d1.isEmpty then none
    else if r1.take 3 = ['|', '|', '|'] then
      let r2 := r1.drop 3
      let d2 := r2.takeWhile Char.isDigit
      let r3 := r2.dropWhile Char.isDigit
      if d2.isEmpty then none
      else if boundaryAfter r3 then some (d1 ++ '|' :: '|' :: '|' :: d2, r3)
      else
        some (d1 ++ '|' :: '|' :: '|' :: (d2 ++ r3.takeWhile isWordChar),
              r3.dropWhile isWordChar)
    else none

/-- The full alternation, in the pattern's order. -/
def tryMatch (prev : Option Char) (s : List Char) : Option (List Char × List Char) :=
  match matchAngle s with
  | some r => some r
  | none =>
    match matchNl s with
    | some r => some r
    | none =>
      match matchQuote s with
      | some r => some r
      | none => matchNum prev s

/-- A raw scanned piece: an unmatched character or a matched span. -/
inductive RawPiece where
  | ch (c : Char)
  | span (s : List Char)
deriving DecidableEq

/-- The original text of a raw piece. -/
def RawPiece.str : RawPiece → List Char
  | .ch c => [c]
  | .span s => s

/-- Left-to-right scan of the whole text (fueled; `fuel ≥ s.length`
    suffices since every match consumes at least one character). -/
def scan : Nat → Option Char → List Char → List RawPiece
  | 0, _, _ => []
  | f + 1, prev, s =>
    match s with
    | [] => []
    | c :: cs =>
      match tryMatch prev s with
      | some (m, rest) => .span m :: scan f (some (m.getLastD c)) rest
      | none => .ch c :: scan f (some c) cs

/-- The body of `extract_html_tags`' `replacement` callback, folded over
    the scanned pieces.  State: the tag dictionary (key/value pairs in
    insertion order, as a Python `dict` iterates) and the id counter.
    A new span is assigned `{{tag_<counter>}}`; a span already among the
    dictionary's values re-emits the first key mapping to it. -/
def extractGo : List RawPiece → List (List Char × List Char) → Nat →
    List Char × List (List Char × List Char)
  | [], dict, _ => ([], dict)
  | .ch c :: r, dict, ctr =>
    let (m, d) := extractGo r dict ctr
    (c :: m, d)
  | .span s :: r, dict, ctr =>
    match dict.find? (fun p => p.2 == s) with
    | some p =>
      let (m, d) := extractGo r dict ctr
      (p.1 ++ m, d)
    | none =>
      let (m, d) := extractGo r (dict ++ [(idString ctr, s)]) (ctr + 1)
      (idString ctr ++ m, d)

/-- `extract_html_tags(text)`: returns the masked text and the tag
    dictionary. -/
def extract_html_tags (t : List Char) : List Char × List (List Char × List Char) :=
  extractGo (scan t.length none t) [] 1

/-! ## `restore_img_tags` (translator.py 336-346) -/

/-- Python's `int(re.search(r"\d+", key).group())`: the value of the
    first digit run in the key. -/
def numOfId (s : List Char) : Nat :=
  valD ((s.dropWhile (fun c => !c.isDigit)).takeWhile Char.isDigit)

/-- Stable insertion into a key-sorted list (ties keep original order,
    as Python's stable `sorted`). -/
def insSorted (key : (List Char × List Char) → Nat) (x : List Char × List Char) :
    List (List Char × List Char) → List (List Char × List Char)
  | [] => [x]
  | y :: ys => if key x ≤ key y then x :: y :: ys else y :: insSorted key x ys

/-- Stable sort by numeric key (Python's `sorted(..., key=...)`). -/
def sortK (key : (List Char × List Char) → Nat) :
    List (List Char × List Char) → List (List Char × List Char)
  | [] => []
  | x :: xs => insSorted key x (sortK key xs)

/-- `restore_img_tags(text, tag_dict)`: replace each placeholder key by
    its span, in ascending order of the key's numeric id. -/
def restore_img_tags (text : List Char) (tag_dict : List (List Char × List Char)) :
    List Char :=
  (sortK (fun p => numOfId p.1) tag_dict).foldl (fun t p => pyReplace t p.1 p.2) text

/-! ## Chunker: `split_text_into_chunks_with_tags` (translator.py 25-58) -/

/-- The continuation placeholder literal `"{{tag_1}}"` used by the
    chunker's carry-over rule. -/
def tag1 : List Char := idString 1

/-- A match of `\{\{tag_\d+\}\}` at the head of `s` (greedy `\d+`
    followed by `}}`; no backtracking can help because digits cannot be
    `}`). Returns the match and the rest. -/
def matchTag (s : List Char) : Option (List Char × List Char) :=
  if s.take 6 = marker then
    let r := s.drop 6
    let d := r.takeWhile Char.isDigit
    let r' := r.dropWhile Char.isDigit
    if d.isEmpty then none
    else if r'.take 2 = ['}', '}'] then
      some (marker ++ d ++ ['}', '}'], r'.drop 2)
    else none
  else none

/-- Python's `re.split(r"(\{\{tag_\d+\}\})", text)`: alternating list
    `[text0, delim1, text1, …]` (capturing split keeps delimiters).
    `acc` accumulates the current text piece; fueled, `fuel ≥ s.length`
    suffices. -/
def splitTags : Nat → List Char → List Char → List (List Char)
  | 0, acc, s => [acc ++ s]
  | f + 1, acc, s =>
    match s with
    | [] => [acc]
    | c :: cs =>
      match matchTag s with
      | some (m, rest) => acc :: m :: splitTags f [] rest
      | none => splitTags f (acc ++ [c]) cs

/-- The nonempty parts of the capturing split (the loop's
    `if not part: continue` skips empty parts). -/
def partsOf (text : List Char) : List (List Char) :=
  (splitTags text.length [] text).filter (fun p => p ≠ [])

/-- The loop body of `split_text_into_chunks_with_tags`, folded over the
    nonempty parts.  `tk` models `count_tokens`; `maxT` is
    `max_tokens` (an `Int`: the caller can pass a negative budget);
    the float comparison `cur + part > max_tokens * 0.9` is modelled
    exactly as `(cur + part) * 10 > maxT * 9`.  `cur`/`curLen` are the
    running chunk and its tracked token length. -/
def splitChunksGo (tk : List Char → Nat) (maxT : Int) :
    List (List Char) → List Char → Nat → List (List Char)
  | [], cur, _ => if pyStrip cur ≠ [] then [pyStrip cur] else []
  | p :: ps, cur, curLen =>
    let pl := tk p
    if ((curLen : Int) + pl) * 10 > maxT * 9 then
      if tag1.isSuffixOf cur then
        pyStrip (cur.take (cur.length - 9)) ::
          splitChunksGo tk maxT ps (tag1 ++ p) (tk (tag1 ++ p))
      else
        pyStrip cur :: splitChunksGo tk maxT ps p pl
    else
      splitChunksGo tk maxT ps (cur ++ p) (curLen + pl)

/-- `split_text_into_chunks_with_tags(text, max_tokens)` with the
    tokenizer as a parameter. -/
def split_text_into_chunks_with_tags (tk : List Char → Nat) (text : List Char)
    (maxT : Int) : List (List Char) :=
  splitChunksGo tk maxT (partsOf text) [] 0

/-! ## BatchRequestBuilder: `file_to_jsonl` (translator.py 88-192)

The interactive `translation_language` prompt makes the system message a
runtime value, so it is a parameter `sysMsg`; `count_tokens` (gpt-4o
encoding) is `tk` and the cl100k `encode` is `enc`.  A chunk variable in
the Python code holds either a `str` (the normal path) or — in the
small-input branch — the *token-id list* `encode(raw_data)`, on which the
later `tokenizer.encode(chunk)` raises `TypeError`; this is modelled by
`ChunkV` and an `Except` result. -/

/-- A `text_chunks` element: a string chunk, or the token-id list the
    small-input branch stores instead. -/
inductive ChunkV where
  | s (t : List Char)
  | toks (l : List Nat)
deriving DecidableEq

/-- `tokenizer.encode(chunk)`: succeeds on a string, raises (`error`) on
    a token-id list. -/
def encV (enc : List Char → List Nat) : ChunkV → Except Unit (List Nat)
  | .s t => .ok (enc t)
  | .toks _ => .error ()

/-- One batch request: its numeric `custom_id`, its user-message
    content, and the token cost `system + chunk + 100` the packer
    accounts for it. -/
structure Request where
  custom_id : Nat
  content : ChunkV
  cost : Nat
deriving DecidableEq

/-- The request-packing loop of `file_to_jsonl`: seals the current file
    when adding the next request would exceed the token budget or when
    the request count has reached the cap, then appends the request.
    Returns the list of written files (the trailing partial file
    included). -/
def packGo (enc : List Char → List Nat) (sysT maxB maxR : Nat) :
    List ChunkV → List Request → Nat → Nat → Nat →
    Except Unit (List (List Request))
  | [], curReqs, _, _, _ =>
    .ok (if curReqs ≠ [] then [curReqs] else [])
  | ch :: rest, curReqs, curTok, reqCount, gid =>
    match encV enc ch with
    | .error e => .error e
    | .ok toks =>
      let total := sysT + toks.length + 100
      let mustSeal := curTok + total > maxB || reqCount ≥ maxR
      let r : Request := ⟨gid, ch, total⟩
      if mustSeal then
        match packGo enc sysT maxB maxR rest [r] total 1 (gid + 1) with
        | .error e => .error e
        | .ok files => .ok (curReqs :: files)
      else
        packGo enc sysT maxB maxR rest (curReqs ++ [r]) (curTok + total) (reqCount + 1) (gid + 1)

/-- `file_to_jsonl`: extract tags, choose the chunking (splitting only
    when the masked text exceeds `max_tokens_per_request = 950` tokens —
    otherwise the code stores `encode(raw_data)`, a token-id list), then
    pack.  Defaults: budget 89900, cap 500. -/
def file_to_jsonl (sysMsg : List Char) (tk : List Char → Nat)
    (enc : List Char → List Nat) (text : List Char) :
    Except Unit (List (List Request)) :=
  let masked := (extract_html_tags text).1
  let sysT := tk sysMsg
  let userT := tk masked
  let chunks : List ChunkV :=
    if userT > 950 then
      (split_text_into_chunks_with_tags tk masked ((950 : Int) - sysT - 100)).map .s
    else [.toks (enc masked)]
  packGo enc sysT 89900 500 chunks [] 0 0 1

/-! ## JobOrchestrator (main.py 30-57, 60-148)

The remote service is a script of responses consumed call by call.  Job
statuses live in `BStatus`; anything outside the vocabulary the code
compares against is `other` (such a status matches no branch, so the job
is simply kept). -/

inductive BStatus where
  | validating | in_progress | finalizing | cancelling | completed | failed | other
deriving DecidableEq

/-- Is the status in the code's active list
    `["in_progress", "cancelling", "finalizing", "validating"]`? -/
def BStatus.isActive : BStatus → Bool
  | .in_progress | .cancelling | .finalizing | .validating => true
  | _ => false

/-- What `check_batch_status` returns for one job (already unpacked the
    way the code reads it): status, optional output/input file ids, and
    the `errors.data` list with each entry's optional `message`. -/
structure BatchRecord where
  status : BStatus
  output_file_id : Option Nat
  input_file_id : Option Nat
  errors : List (Option (List Char))
deriving DecidableEq

/-- One scripted remote response: a `check_batch_status` result
    (`none` = transport failure), a `manage_batches` listing, or a
    `create_batch` result (`none` = creation failed). -/
inductive RemoteResp where
  | status (r : Option BatchRecord)
  | listing (l : List BStatus)
  | created (id : Option Nat)
deriving DecidableEq

/-- Orchestrator state: its job-id list and the retry queue of input
    file ids. -/
structure MState where
  batch_ids : List Nat
  retry : List Nat
deriving DecidableEq

/-- The exact failure pattern the code searches for. -/
def quotaPat : List Char := "Enqueued token limit reached".toList

/-- `errors[0].get("message", "No error message provided") if errors
    else "No error message provided"`. -/
def firstMsg (errors : List (Option (List Char))) : List Char :=
  match errors with
  | [] => "No error message provided".toList
  | e :: _ => e.getD "No error message provided".toList

/-- One iteration of the `for batch_id in batch_ids[:]` poll over a
    single job: `completed`/`failed` remove the job (a quota failure
    with an input file id also queues it); active statuses keep it; a
    transport failure or unknown status matches no branch and keeps
    it. -/
def pollOne (st : MState) (b : Nat) (resp : Option BatchRecord) : MState :=
  match resp with
  | none => st
  | some rec =>
    match rec.status with
    | .completed => { st with batch_ids := st.batch_ids.erase b }
    | .failed =>
      let msg := firstMsg rec.errors
      let retry' :=
        if containsB quotaPat msg then
          match rec.input_file_id with
          | some f => st.retry ++ [f]
          | none => st.retry
        else st.retry
      { batch_ids := st.batch_ids.erase b, retry := retry' }
    | _ => st

/-- Consume the next scripted `check_batch_status` response (a
    mismatched or exhausted script behaves as a transport failure). -/
def takeStatus : List RemoteResp → Option BatchRecord × List RemoteResp
  | .status r :: rest => (r, rest)
  | s => (none, s)

/-- Consume the next scripted `manage_batches` listing (mismatch or
    exhaustion yields the empty listing, as the code's `return []`). -/
def takeListing : List RemoteResp → List BStatus × List RemoteResp
  | .listing l :: rest => (l, rest)
  | s => ([], s)

/-- Consume the next scripted `create_batch` result. -/
def takeCreated : List RemoteResp → Option Nat × List RemoteResp
  | .created i :: rest => (i, rest)
  | s => (none, s)

/-- The poll sweep `for batch_id in batch_ids[:]`, also recording each
    job's response for instrumentation. -/
def pollSweep : List Nat → MState → List RemoteResp →
    MState × List RemoteResp × List (Nat × Option BatchRecord)
  | [], st, script => (st, script, [])
  | b :: bs, st, script =>
    let (r, script') := takeStatus script
    let st' := pollOne st b r
    let (st'', script'', polls) := pollSweep bs st' script'
    (st'', script'', (b, r) :: polls)

/-- The retry-drain loop body
    `for input_file_id in retry_batches[:]`: create a fresh job from
    each queued input file id, appending created job ids and removing
    requeued inputs whose creation succeeded. -/
def drainLoop : List Nat → MState → List RemoteResp →
    MState × List RemoteResp × List Nat
  | [], st, script => (st, script, [])
  | f :: fs, st, script =>
    let (r, script') := takeCreated script
    match r with
    | some jid =>
      let st' : MState := { batch_ids := st.batch_ids ++ [jid], retry := st.retry.erase f }
      let (st'', script'', created) := drainLoop fs st' script'
      (st'', script'', f :: created)
    | none =>
      let (st'', script'', created) := drainLoop fs st script'
      (st'', script'', created)

/-- The outcome of one iteration of the monitor's `while` loop:
    resulting state and script, the poll responses, the drain's
    active-count query (if the drain guard ran), and the input file ids
    for which the drain created fresh jobs. -/
structure RoundOut where
  state : MState
  script : List RemoteResp
  polls : List (Nat × Option BatchRecord)
  preDrain : MState
  drainQuery : Option Nat
  retriesCreated : List Nat
deriving DecidableEq

/-- One iteration of `monitor_and_download_results`' `while` loop: poll
    every job in `batch_ids[:]`, then — when `batch_ids` is empty and
    the retry queue is not — query the listing and, only if it reports
    zero active jobs, drain the retry queue. -/
def monitorRound (st : MState) (script : List RemoteResp) : RoundOut :=
  let sw := pollSweep st.batch_ids st script
  let st1 := sw.1
  if st1.batch_ids = [] ∧ st1.retry ≠ [] then
    let tl := takeListing sw.2.1
    let active := (tl.1.filter BStatus.isActive).length
    if active = 0 then
      let dl := drainLoop st1.retry st1 tl.2
      ⟨dl.1, dl.2.1, sw.2.2, st1, some active, dl.2.2⟩
    else
      ⟨st1, tl.2, sw.2.2, st1, some active, []⟩
  else ⟨st1, sw.2.1, sw.2.2, st1, none, []⟩

/-- Run the monitor loop for up to `fuel` iterations, collecting each
    round's outcome (the loop exits when both sets are empty). -/
def monitorRun : Nat → MState → List RemoteResp → List RoundOut
  | 0, _, _ => []
  | f + 1, st, script =>
    if st.batch_ids = [] ∧ st.retry = [] then []
    else
      let r := monitorRound st script
      r :: monitorRun f r.state r.script

/-- How many of the orchestrator's own jobs this round saw in a
    non-terminal active state (`validating`, `in_progress`,
    `finalizing`, `cancelling`). -/
def roundActiveOwn (r : RoundOut) : Nat :=
  (r.polls.filter (fun p =>
    match p.2 with
    | some rec => rec.status.isActive
    | none => false)).length

/-- One iteration of `create_all_batches`' `while pending_files` loop:
    query the listing; if fewer than 2 active jobs are reported, pop the
    next pending file and try to create its job. Returns the new
    pending list and created-ids list, the remaining script, and the
    reported count. -/
def createAllRound (pending : List Nat) (ids : List Nat) (script : List RemoteResp) :
    List Nat × List Nat × List RemoteResp × Nat :=
  let tl := takeListing script
  let active := (tl.1.filter BStatus.isActive).length
  if active < 2 then
    match pending with
    | [] => ([], ids, tl.2, active)
    | _f :: fs =>
      let tc := takeCreated tl.2
      match tc.1 with
      | some jid => (fs, ids ++ [jid], tc.2, active)
      | none => (fs, ids, tc.2, active)
  else (pending, ids, tl.2, active)

/-- Run `create_all_batches` for up to `fuel` iterations, returning the
    created job ids and the remaining script. -/
def createAllRun : Nat → List Nat → List Nat → List RemoteResp → List Nat × List RemoteResp
  | 0, _, ids, script => (ids, script)
  | f + 1, pending, ids, script =>
    match pending with
    | [] => (ids, script)
    | _ =>
      let (p', ids', script', _) := createAllRound pending ids script
      createAllRun f p' ids' script'

/-- `create_all_batches(file_ids)` followed by
    `monitor_and_download_results(batch_ids, …)`, on one script. -/
def pipeline (fuel : Nat) (file_ids : List Nat) (script : List RemoteResp) :
    List RoundOut :=
  let (ids, script') := createAllRun fuel file_ids [] script
  monitorRun fuel ⟨ids, []⟩ script'

/-! ## Concrete scenario data -/

/-- A `failed` status record carrying the quota-exhaustion message and an
    input file id `f`. -/
def quotaRec (f : Nat) : BatchRecord := ⟨.failed, none, some f, [some quotaPat]⟩

/-- An `in_progress` status record. -/
def ipRec : BatchRecord := ⟨.in_progress, none, none, []⟩

/-- A `completed` status record without an output file. -/
def doneRec : BatchRecord := ⟨.completed, none, none, []⟩

/-- A remote script: `create_all_batches` admits jobs 1-3 over three
    listing checks, then in the monitor all three fail on quota, the
    empty listing lets the drain create jobs 4-6 at once, and a poll
    round sees all three `in_progress` before they complete. -/
def cexScript : List RemoteResp :=
  [ .listing [], .created (some 1),
    .listing [.in_progress], .created (some 2),
    .listing [.failed, .failed], .created (some 3),
    .status (some (quotaRec 101)), .status (some (quotaRec 102)),
    .status (some (quotaRec 103)),
    .listing [], .created (some 4), .created (some 5), .created (some 6),
    .status (some ipRec), .status (some ipRec), .status (some ipRec),
    .status (some doneRec), .status (some doneRec), .status (some doneRec) ]

/-- A `failed` record whose first error message is not about quota but
    whose second one is, with input file id 7. -/
def mixedFailRec : BatchRecord :=
  ⟨.failed, none, some 7, [some ("boom".toList), some quotaPat]⟩

/-- The cumulative token cost of a batch file as the packer accounts
    it. -/
def fileCost (f : List Request) : Nat := (f.map Request.cost).sum

/-- The round-trip scenario input `"Hello <b>world</b>\n"`. -/
def helloText : List Char := "Hello <b>world</b>\n".toList

/-- The input `<{{tag_2}}>` followed by a newline: both of its spans
    (an angle-bracket tag and a newline) are supported span types, but
    the tag's body happens to spell a placeholder. -/
def c1Text : List Char := '<' :: (idString 2 ++ ['>', '\n'])

/-- The batch files `file_to_jsonl` produces for input `"ab"` under the
    length-scaled tokenizer `fun s => 1000 * s.length` (big-input path:
    an empty chunk is sealed first, then `"ab"`). -/
def c9Files : List (List Request) :=
  [[⟨1, ChunkV.s [], 100⟩, ⟨2, ChunkV.s ('a' :: 'b' :: []), 102⟩]]

/-- The batch files `file_to_jsonl` produces for input `"ab"` with
    system message `"x"` under `tk = fun s => 90000 * s.length`: an
    empty file, then two single-request files each over the 89900
    budget. -/
def c10Files : List (List Request) :=
  [[], [⟨1, ChunkV.s [], 90100⟩], [⟨2, ChunkV.s ('a' :: 'b' :: []), 90102⟩]]

/-- Decidable equality for the packer's `Except` results. -/
instance instDecEqExcept {e a : Type} [DecidableEq e] [DecidableEq a] :
    DecidableEq (Except e a) := fun x y =>
  match x, y with
  | .error v, .error w =>
    if h : v = w then .isTrue (by rw [h]) else .isFalse (by simp [h])
  | .error _, .ok _ => .isFalse (by simp)
  | .ok _, .error _ => .isFalse (by simp)
  | .ok v, .ok w =>
    if h : v = w then .isTrue (by rw [h]) else .isFalse (by simp [h])

/-- A placeholder-shaped part: `{{tag_` + a nonempty digit run + `}}`
    (exactly the delimiters `re.split(r"(\{\{tag_\d+\}\})", ...)`
    captures). -/
def IsDelim (p : List Char) : Prop :=
  ∃ d, d ≠ [] ∧ (∀ c ∈ d, c.isDigit = true) ∧ p = marker ++ d ++ ['}', '}']

/-- A part free of placeholder substrings: no `{{tag_N}}` occurs in
    it. -/
def CleanT (p : List Char) : Prop := ∀ k, ¬ Infx (idString k) p

/-- Every nonempty part of the capturing split is either a whole
    placeholder or placeholder-free text. -/
def PartOk (p : List Char) : Prop := IsDelim p ∨ (p ≠ [] ∧ CleanT p)

/-- No two placeholder-free text parts are adjacent (a delimiter always
    separates the split's text pieces). -/
def NoTwoTexts (l : List (List Char)) : Prop :=
  List.Chain' (fun a b => IsDelim a ∨ IsDelim b) l

/-- The chunker counterexample text
    `"aaaaaaaaa{{tag_1}}pppppppppp{{tag_2}}"`. -/
def c5Text : List Char :=
  "aaaaaaaaa".toList ++ tag1 ++ "pppppppppp".toList ++ idString 2

/-! ## Round-trip analysis: pieces and blocks

To reason about `restore_img_tags (extract_html_tags t)` we re-express the
masked text as a list of *pieces* (literal characters and placeholder
ids) and each intermediate restoration state as a list of *blocks*
(literal text runs and not-yet-substituted placeholders). -/

/-- A piece of the masked text: a literal fragment, or the placeholder
    with id `j`. -/
inductive Piece where
  | lit (s : List Char)
  | ph (j : Nat)

/-- Index of the first element equal to `s` (the dictionary's
    first-value lookup, on the value list alone). -/
def findIdxV (s : List Char) : List (List Char) → Option Nat
  | [] => none
  | v :: vs => if v = s then some 0 else (findIdxV s vs).map (· + 1)

/-- Value-list form of `extractGo`: the pieces of the masked text and
    the dictionary's values in insertion order. -/
def extractPieces : List RawPiece → List (List Char) → List Piece × List (List Char)
  | [], vs => ([], vs)
  | .ch c :: r, vs =>
    (Piece.lit [c] :: (extractPieces r vs).1, (extractPieces r vs).2)
  | .span s :: r, vs =>
    match findIdxV s vs with
    | some i =>
      (Piece.ph (i + 1) :: (extractPieces r vs).1, (extractPieces r vs).2)
    | none =>
      (Piece.ph (vs.length + 1) :: (extractPieces r (vs ++ [s])).1,
        (extractPieces r (vs ++ [s])).2)

/-- The dictionary built from a value list, ids counted from `k`. -/
def enumFrom (k : Nat) : List (List Char) → List (List Char × List Char)
  | [] => []
  | v :: vs => (idString k, v) :: enumFrom (k + 1) vs

/-- The masked form of a piece. -/
def phRender : Piece → List Char
  | .lit s => s
  | .ph j => idString j

/-- The original text a piece stands for (`vs` the value list). -/
def origStr (vs : List (List Char)) : Piece → List Char
  | .lit s => s
  | .ph j => vs.getD (j - 1) []

/-- A piece after the first `k` restoration passes: placeholders with id
    `≤ k` are already substituted back. -/
def renderP (vs : List (List Char)) (k : Nat) : Piece → List Char
  | .lit s => s
  | .ph j => if j ≤ k then vs.getD (j - 1) [] else idString j

/-- A block of an intermediate restoration state: a literal text run or
    a placeholder still to be substituted. -/
inductive Blk where
  | txt (s : List Char)
  | ph (j : Nat)

/-- Is the block a placeholder? -/
def Blk.isPh : Blk → Bool
  | .txt _ => false
  | .ph _ => true

/-- The text of a block. -/
def blkStr : Blk → List Char
  | .txt s => s
  | .ph j => idString j

/-- The text of a block after placeholder `m` is replaced by `v`. -/
def blkStr1 (m : Nat) (v : List Char) : Blk → List Char
  | .txt s => s
  | .ph j => if j = m then v else idString j

/-- The original text of a block, placeholder origins given by `g`. -/
def origBlk (g : Nat → List Char) : Blk → List Char
  | .txt s => s
  | .ph j => g j

/-- View a piece at restoration stage `k` as a block. -/
def toSub (vs : List (List Char)) (k : Nat) : Piece → Blk
  | .lit s => .txt s
  | .ph j => if j ≤ k then .txt (vs.getD (j - 1) []) else .ph j

/-- Prepend a text run, merging with an adjacent leading text run. -/
def consTxt (s : List Char) : List Blk → List Blk
  | .txt s2 :: bs => .txt (s ++ s2) :: bs
  | bs => .txt s :: bs

/-- Merge adjacent text runs so no two text blocks are adjacent. -/
def toBlks : List Blk → List Blk
  | [] => []
  | .ph j :: r => .ph j :: toBlks r
  | .txt s :: r => consTxt s (toBlks r)

/-- No two adjacent literal text blocks. -/
def NoAdjTxt (l : List Blk) : Prop :=
  List.Chain' (fun a b => a.isPh = true ∨ b.isPh = true) l

/-! ## Supporting lemmas -/

theorem digitChar_toNat (n : Nat) (h : n < 10) : (digitChar n).toNat = 48 + n := by
  interval_cases n <;> rfl

theorem digsF_irrel : ∀ f f' n, n < 10 ∨ (n ≤ f ∧ n ≤ f') → digsF f n = digsF f' n := by
  intro f
  induction f using Nat.strong_induction_on with
  | _ f ih =>
    intro f' n h
    match f, f' with
    | 0, 0 => rfl
    | 0, g + 1 =>
      have hn : n < 10 := by omega
      simp [digsF, hn]
    | g + 1, 0 =>
      have hn : n < 10 := by omega
      simp [digsF, hn]
    | g + 1, g' + 1 =>
      by_cases hn : n < 10
      · simp [digsF, hn]
      · simp only [digsF, hn, if_false]
        rw [ih g (by omega) g' (n / 10) (by omega)]

theorem digs_eq (n : Nat) :
    digs n = if n < 10 then [digitChar n] else digs (n / 10) ++ [digitChar (n % 10)] := by
  by_cases h : n < 10
  · simp only [h, if_true]
    cases n with
    | zero => rfl
    | succ m => simp [digs, digsF, h]
  · simp only [digs, h, if_false]
    have h2 : digsF n n = digsF (n - 1 + 1) n := by congr 1; omega
    rw [h2]
    simp only [digsF, h, if_false]
    rw [digsF_irrel (n - 1) (n / 10) (n / 10) (by omega)]

/-- Every character of a digit string is an ASCII digit. -/
theorem digs_digits (n : Nat) : ∀ c ∈ digs n, 48 ≤ c.toNat ∧ c.toNat ≤ 57 := by
  induction n using Nat.strong_induction_on with
  | _ n ih =>
    rw [digs_eq]
    by_cases h : n < 10
    · simp only [h, if_true, List.mem_singleton]
      rintro c rfl
      rw [digitChar_toNat n h]
      omega
    · simp only [h, if_false, List.mem_append, List.mem_singleton]
      rintro c (hc | rfl)
      · exact ih (n / 10) (by omega) c hc
      · rw [digitChar_toNat (n % 10) (by omega)]
        omega

theorem digs_ne_nil (n : Nat) : digs n ≠ [] := by
  rw [digs_eq]
  by_cases h : n < 10 <;> simp [h]

theorem valD_append (s t : List Char) :
    valD (s ++ t) = t.foldl (fun a c => 10 * a + (c.toNat - 48)) (valD s) := by
  simp [valD, List.foldl_append]

/-- `valD` inverts `digs`: parsing the printed digits gives back the number. -/
theorem valD_digs (n : Nat) : valD (digs n) = n := by
  induction n using Nat.strong_induction_on with
  | _ n ih =>
    rw [digs_eq]
    by_cases h : n < 10
    · simp only [h, if_true]
      simp [valD, digitChar_toNat n h]
    · simp only [h, if_false, valD_append, ih (n / 10) (by omega)]
      simp [valD, digitChar_toNat (n % 10) (by omega)]
      omega

/-- Digit strings are injective. -/
theorem digs_inj {m n : Nat} (h : digs m = digs n) : m = n := by
  have := valD_digs m
  rw [h, valD_digs] at this
  omega

theorem digs_no_brace (n : Nat) : ∀ c ∈ digs n, c ≠ '}' ∧ c ≠ '{' := by
  intro c hc
  have h := digs_digits n c hc
  constructor <;> (rintro rfl; revert h; decide)

theorem idString_ne_nil (k : Nat) : idString k ≠ [] := by
  simp [idString, marker]

theorem idString_length (k : Nat) : 9 ≤ (idString k).length := by
  have h := digs_ne_nil k
  simp only [idString, marker, List.length_append, List.length_cons]
  cases hd : digs k with
  | nil => exact absurd hd h
  | cons a l => simp; omega

theorem isPrefixOf_iff (p s : List Char) : p.isPrefixOf s = true ↔ ∃ t, s = p ++ t := by
  induction p generalizing s with
  | nil => simp [List.isPrefixOf]
  | cons a as ih =>
    cases s with
    | nil => simp [List.isPrefixOf]
    | cons b bs =>
      simp only [List.isPrefixOf, Bool.and_eq_true, beq_iff_eq, ih, List.cons_append,
        List.cons.injEq]
      constructor
      · rintro ⟨rfl, t, rfl⟩; exact ⟨t, rfl, rfl⟩
      · rintro ⟨t, rfl, rfl⟩; exact ⟨rfl, t, rfl⟩

theorem containsB_iff (p s : List Char) : containsB p s = true ↔ Infx p s := by
  induction s with
  | nil =>
    simp only [containsB, List.isEmpty_iff, Infx]
    constructor
    · rintro rfl; exact ⟨[], [], rfl⟩
    · rintro ⟨x, y, hxy⟩
      rcases List.append_eq_nil.mp hxy.symm with ⟨h1, _⟩
      rcases List.append_eq_nil.mp h1 with ⟨_, h2⟩
      exact h2.symm ▸ rfl
  | cons c cs ih =>
    simp only [containsB, Bool.or_eq_true, isPrefixOf_iff, ih, Infx]
    constructor
    · rintro (⟨t, ht⟩ | ⟨x, y, hxy⟩)
      · exact ⟨[], t, by simp [ht]⟩
      · exact ⟨c :: x, y, by simp [hxy]⟩
    · rintro ⟨x, y, hxy⟩
      cases x with
      | nil => exact Or.inl ⟨y, by simpa using hxy⟩
      | cons d ds =>
        simp only [List.cons_append, List.cons.injEq] at hxy
        exact Or.inr ⟨ds, y, hxy.2⟩

theorem Infx.trans {a b c : List Char} (h1 : Infx a b) (h2 : Infx b c) : Infx a c := by
  obtain ⟨x, y, rfl⟩ := h1
  obtain ⟨u, v, rfl⟩ := h2
  exact ⟨u ++ x, y ++ v, by simp⟩

theorem Infx.of_append_left {a b c : List Char} (h : Infx a b) : Infx a (b ++ c) := by
  obtain ⟨x, y, rfl⟩ := h
  exact ⟨x, y ++ c, by simp⟩

theorem Infx.of_append_right {a b c : List Char} (h : Infx a c) : Infx a (b ++ c) := by
  obtain ⟨x, y, rfl⟩ := h
  exact ⟨b ++ x, y, by simp⟩

/-! ## Orchestrator lemmas -/

theorem drainLoop_created_sub :
    ∀ (fs : List Nat) (st : MState) (script : List RemoteResp),
      ∀ f ∈ (drainLoop fs st script).2.2, f ∈ fs := by
  intro fs
  induction fs with
  | nil => intro st script f hf; simp [drainLoop] at hf
  | cons g gs ih =>
    intro st script f hf
    simp only [drainLoop] at hf
    rcases htc : takeCreated script with ⟨r, script'⟩
    rw [htc] at hf
    cases r with
    | some jid =>
      simp only at hf
      rcases hdl : drainLoop gs
          { batch_ids := st.batch_ids ++ [jid], retry := st.retry.erase g } script' with
        ⟨st'', script'', created⟩
      rw [hdl] at hf
      simp only [List.mem_cons] at hf
      rcases hf with rfl | hf
      · exact List.mem_cons_self _ _
      · have := ih _ script' f (by rw [hdl]; exact hf)
        exact List.mem_cons_of_mem _ this
    | none =>
      simp only at hf
      rcases hdl : drainLoop gs st script' with ⟨st'', script'', created⟩
      rw [hdl] at hf
      have := ih st script' f (by rw [hdl]; exact hf)
      exact List.mem_cons_of_mem _ this

theorem drainLoop_created_len :
    ∀ (fs : List Nat) (st : MState) (script : List RemoteResp),
      (drainLoop fs st script).2.2.length ≤ fs.length := by
  intro fs
  induction fs with
  | nil => intro st script; simp [drainLoop]
  | cons g gs ih =>
    intro st script
    simp only [drainLoop]
    rcases htc : takeCreated script with ⟨r, script'⟩
    cases r with
    | some jid =>
      rcases hdl : drainLoop gs
          { batch_ids := st.batch_ids ++ [jid], retry := st.retry.erase g } script' with
        ⟨st'', script'', created⟩
      have := ih { batch_ids := st.batch_ids ++ [jid], retry := st.retry.erase g } script'
      rw [hdl] at this
      simp only at this
      simp [hdl]
      omega
    | none =>
      rcases hdl : drainLoop gs st script' with ⟨st'', script'', created⟩
      have := ih st script'
      rw [hdl] at this
      simp only at this
      simp [hdl]
      omega


/-! ## Claim C3 -/

/-- **C3** (confirmed): a fresh job for a queued input file id is created
only at an instant when the job-listing query reports zero jobs in
`{validating, in_progress, finalizing, cancelling}`: in any iteration of
the monitor loop, if the retry drain created any job then the listing
consumed by that iteration's drain guard reported an active count of
zero; when the reported count is positive (or the guard does not run)
nothing is drained. -/
theorem retry_drain_barrier (st : MState) (script : List RemoteResp)
    (h : (monitorRound st script).retriesCreated ≠ []) :
    (monitorRound st script).drainQuery = some 0 := by
  unfold monitorRound at h ⊢
  by_cases hg : (pollSweep st.batch_ids st script).1.batch_ids = [] ∧
      (pollSweep st.batch_ids st script).1.retry ≠ []
  · simp only [if_pos hg] at h ⊢
    by_cases ha : (((takeListing (pollSweep st.batch_ids st script).2.1).1.filter
        BStatus.isActive).length) = 0
    · simp only [if_pos ha] at h ⊢
      simp [ha]
    · simp only [if_neg ha] at h
      exact absurd rfl h
  · simp only [if_neg hg] at h
    exact absurd rfl h

/-- **C3 witness**: a concrete drain — empty job list, retry queue
`[5]`, a listing reporting no active jobs, and a successful creation —
does create a job, and the theorem applies. -/
theorem retry_drain_barrier_witness :
    (monitorRound ⟨[], [5]⟩ [.listing [], .created (some 9)]).retriesCreated ≠ [] ∧
    (monitorRound ⟨[], [5]⟩ [.listing [], .created (some 9)]).drainQuery = some 0 :=
  ⟨by decide, retry_drain_barrier ⟨[], [5]⟩ [.listing [], .created (some 9)] (by decide)⟩

/-! ## Claim C2 -/

/-- **C2 counterexample**: the claim "at no point does the orchestrator
hold more than K = 2 of its own jobs in a non-terminal active state —
including the jobs it creates when draining the retry queue" is false:
running `create_all_batches` on three input files followed by the
monitor loop against the concrete script `cexScript` (three quota
failures, then a drain from an empty active listing) produces a round
that observes 3 of the orchestrator's own jobs simultaneously
`in_progress`. -/
theorem bounded_concurrency_counterexample :
    ∃ r ∈ pipeline 10 [201, 202, 203] cexScript, 2 < roundActiveOwn r := by decide

/-- **C2** (amended): the K = 2 bound governs only `create_all_batches`'
admission: a job is created outside the drain only when the listing just
queried reported fewer than 2 active jobs; the retry drain instead
creates up to one job per queued input file id in a single instant, so
immediately after a drain the orchestrator's active jobs are bounded
only by the length of the retry queue at the drain, not by 2. -/
theorem bounded_concurrency_amended :
    (∀ (pending ids : List Nat) (script : List RemoteResp),
      ids.length < (createAllRound pending ids script).2.1.length →
        (createAllRound pending ids script).2.2.2 < 2) ∧
    (∀ (st : MState) (script : List RemoteResp),
      (monitorRound st script).retriesCreated.length ≤
        (monitorRound st script).preDrain.retry.length) := by
  constructor
  · intro pending ids script h
    unfold createAllRound at h ⊢
    by_cases ha : (((takeListing script).1.filter BStatus.isActive).length) < 2
    · simp only [if_pos ha] at h ⊢
      cases pending with
      | nil => simpa using ha
      | cons f fs =>
        cases htc : (takeCreated (takeListing script).2).1 with
        | some jid => simp only [htc] at h ⊢; simpa using ha
        | none => simp only [htc] at h ⊢; simpa using ha
    · simp only [if_neg ha] at h
      omega
  · intro st script
    unfold monitorRound
    by_cases hg : (pollSweep st.batch_ids st script).1.batch_ids = [] ∧
        (pollSweep st.batch_ids st script).1.retry ≠ []
    · simp only [if_pos hg]
      by_cases ha : (((takeListing (pollSweep st.batch_ids st script).2.1).1.filter
          BStatus.isActive).length) = 0
      · simp only [if_pos ha]
        simpa using drainLoop_created_len (pollSweep st.batch_ids st script).1.retry
          (pollSweep st.batch_ids st script).1
          (takeListing (pollSweep st.batch_ids st script).2.1).2
      · rw [if_neg ha]
        simp
    · rw [if_neg hg]
      simp

/-- **C2 amended, witness**: at a concrete admission check reporting one
active job, a job is created and the reported count is below 2; and a
concrete drain of a two-element retry queue creates at most two jobs. -/
theorem bounded_concurrency_amended_witness :
    (createAllRound [7] [] [.listing [.in_progress], .created (some 3)]).2.2.2 < 2 ∧
    (monitorRound ⟨[], [5, 6]⟩ [.listing [], .created (some 9), .created (some 10)]
        ).retriesCreated.length ≤
      (monitorRound ⟨[], [5, 6]⟩ [.listing [], .created (some 9), .created (some 10)]
        ).preDrain.retry.length :=
  ⟨bounded_concurrency_amended.1 [7] [] [.listing [.in_progress], .created (some 3)]
      (by decide),
   bounded_concurrency_amended.2 ⟨[], [5, 6]⟩
      [.listing [], .created (some 9), .created (some 10)]⟩

/-! ## Claim C4 -/

/-- **C4 counterexample**: the claim "if any of its error messages
indicates enqueued-token/quota exhaustion then the job's input file id
is added to the retry queue" is false: for the failed record
`mixedFailRec` — first message `"boom"`, second message the quota
pattern, input file id 7 — some error message does indicate quota
exhaustion, yet polling it leaves the retry queue empty (the code
inspects only `errors[0]`). -/
theorem failure_classification_counterexample :
    (∃ e ∈ mixedFailRec.errors, containsB quotaPat (e.getD []) = true) ∧
    (pollOne ⟨[1], []⟩ 1 (some mixedFailRec)).retry = [] := by decide

/-- **C4** (amended): failure classification inspects only the *first*
error message (or the default text when the list is empty): a failed job
is always removed from the job list; when the first message contains the
quota pattern and the record carries an input file id, that id is
appended to the retry queue; when the first message does not contain the
pattern, or no input file id is present, the retry queue is unchanged
(the job is terminal).  Jobs created by the drain come only from the
retry queue, so terminal failures are never resubmitted. -/
theorem failure_classification_amended :
    (∀ (st : MState) (b : Nat) (rec : BatchRecord), rec.status = .failed →
      (pollOne st b (some rec)).batch_ids = st.batch_ids.erase b ∧
      (∀ f, rec.input_file_id = some f →
        containsB quotaPat (firstMsg rec.errors) = true →
        (pollOne st b (some rec)).retry = st.retry ++ [f]) ∧
      (containsB quotaPat (firstMsg rec.errors) = false →
        (pollOne st b (some rec)).retry = st.retry) ∧
      (rec.input_file_id = none → (pollOne st b (some rec)).retry = st.retry)) ∧
    (∀ (st : MState) (script : List RemoteResp),
      ∀ f ∈ (monitorRound st script).retriesCreated,
        f ∈ (monitorRound st script).preDrain.retry) := by
  constructor
  · intro st b rec hfail
    refine ⟨?_, ?_, ?_, ?_⟩
    · simp [pollOne, hfail]
    · intro f hf hq
      simp [pollOne, hfail, hq, hf]
    · intro hq
      simp [pollOne, hfail, hq]
    · intro hf
      by_cases hq : containsB quotaPat (firstMsg rec.errors) = true
      · simp [pollOne, hfail, hq, hf]
      · simp only [Bool.not_eq_true] at hq
        simp [pollOne, hfail, hq]
  · intro st script
    unfold monitorRound
    by_cases hg : (pollSweep st.batch_ids st script).1.batch_ids = [] ∧
        (pollSweep st.batch_ids st script).1.retry ≠ []
    · simp only [if_pos hg]
      by_cases ha : (((takeListing (pollSweep st.batch_ids st script).2.1).1.filter
          BStatus.isActive).length) = 0
      · simp only [if_pos ha]
        simpa using drainLoop_created_sub (pollSweep st.batch_ids st script).1.retry
          (pollSweep st.batch_ids st script).1
          (takeListing (pollSweep st.batch_ids st script).2.1).2
      · rw [if_neg ha]
        simp
    · rw [if_neg hg]
      simp

/-- **C4 amended, witness**: polling job 1 with a quota failure carrying
input file id 7 removes the job and queues 7. -/
theorem failure_classification_amended_witness :
    (pollOne ⟨[1], [4]⟩ 1 (some (quotaRec 7))).batch_ids = List.erase [1] 1 ∧
    (pollOne ⟨[1], [4]⟩ 1 (some (quotaRec 7))).retry = [4] ++ [7] :=
  ⟨(failure_classification_amended.1 ⟨[1], [4]⟩ 1 (quotaRec 7) (by decide)).1,
   (failure_classification_amended.1 ⟨[1], [4]⟩ 1 (quotaRec 7) (by decide)).2.1 7
      (by decide) (by decide)⟩


/-! ## Claim C7 -/

/-- **C7 counterexample**: the claim that extraction of
`"Hello <b>world</b>\n"` yields exactly 2 placeholders is false: the
pattern matches `<b>`, `</b>` and the newline separately, so the tag
dictionary has 3 entries. -/
theorem hello_scenario_counterexample :
    ¬ (extract_html_tags helloText).2.length = 2 := by decide

/-- **C7** (amended): extraction of `"Hello <b>world</b>\n"` yields
exactly 3 placeholders — `{{tag_1}} ↦ <b>`, `{{tag_2}} ↦ </b>`,
`{{tag_3}} ↦ \n` — and the masked text replaces each span by its
placeholder. -/
theorem hello_scenario :
    (extract_html_tags helloText).2 =
      [(idString 1, "<b>".toList), (idString 2, "</b>".toList),
       (idString 3, "\n".toList)] ∧
    (extract_html_tags helloText).1 =
      "Hello ".toList ++ idString 1 ++ "world".toList ++ idString 2 ++ idString 3 := by
  decide

/-! ## Claim C8 -/

/-- **C8** (code bug): when the masked input's token count does not
exceed `max_tokens_per_request = 950`, the claim (and the spec) says the
single request's user content is the masked text itself; instead the
code stores the *token-id list* `encode(raw_data)` in `text_chunks`, and
the packing loop's `tokenizer.encode(chunk)` then raises `TypeError`, so
no request is produced at all: the model returns an error. -/
theorem small_input_request_bug (sysMsg : List Char) (tk : List Char → Nat)
    (enc : List Char → List Nat) (text : List Char)
    (h : tk (extract_html_tags text).1 ≤ 950) :
    file_to_jsonl sysMsg tk enc text = .error () := by
  unfold file_to_jsonl
  have hnot : ¬ tk (extract_html_tags text).1 > 950 := by omega
  simp only [if_neg hnot, packGo, encV]

/-- **C8 witness**: the five-character input `"Hello"` (token count 5
under the length tokenizer) takes the small-input branch and errors. -/
theorem small_input_request_bug_witness :
    file_to_jsonl [] List.length (fun s => s.map Char.toNat) "Hello".toList =
      .error () :=
  small_input_request_bug [] List.length (fun s => s.map Char.toNat)
    "Hello".toList (by decide)

/-! ## Claim C1, counterexample -/

/-- **C1 counterexample**: the round-trip contract fails on
`c1Text = "<{{tag_2}}>\n"`, an input containing only supported span
types (one angle-bracket tag, one newline): extraction masks it to
`{{tag_1}}{{tag_2}}` with `{{tag_1}} ↦ <{{tag_2}}>`, `{{tag_2}} ↦ \n`,
and restoration produces `<\n>\n` instead of the original. -/
theorem tag_roundtrip_counterexample :
    restore_img_tags (extract_html_tags c1Text).1 (extract_html_tags c1Text).2 ≠
      c1Text := by decide


/-! ## Claims C9 and C10: the packing loop -/

theorem fileCost_append (a b : List Request) :
    fileCost (a ++ b) = fileCost a + fileCost b := by
  simp [fileCost]

theorem packGo_ids (enc : List Char → List Nat) (sysT maxB maxR : Nat) :
    ∀ (chunks : List ChunkV) (curReqs : List Request) (curTok reqCount gid : Nat)
      (files : List (List Request)),
      packGo enc sysT maxB maxR chunks curReqs curTok reqCount gid = .ok files →
      ∃ n, files.flatten.map Request.custom_id =
        curReqs.map Request.custom_id ++ List.range' gid n := by
  intro chunks
  induction chunks with
  | nil =>
    intro curReqs curTok reqCount gid files h
    simp only [packGo] at h
    by_cases hc : curReqs ≠ []
    · rw [if_pos hc] at h
      cases h
      exact ⟨0, by simp⟩
    · rw [if_neg hc] at h
      cases h
      simp only [not_not] at hc
      exact ⟨0, by simp [hc]⟩
  | cons ch rest ih =>
    intro curReqs curTok reqCount gid files h
    simp only [packGo] at h
    cases henc : encV enc ch with
    | error e => rw [henc] at h; cases h
    | ok toks =>
      rw [henc] at h
      simp only at h
      by_cases hseal : (decide (curTok + (sysT + toks.length + 100) > maxB) ||
          decide (reqCount ≥ maxR)) = true
      · rw [if_pos hseal] at h
        cases hrec : packGo enc sysT maxB maxR rest
            [⟨gid, ch, sysT + toks.length + 100⟩] (sysT + toks.length + 100) 1
            (gid + 1) with
        | error e => rw [hrec] at h; cases h
        | ok files' =>
          rw [hrec] at h
          cases h
          obtain ⟨n, hn⟩ := ih _ _ _ _ _ hrec
          refine ⟨n + 1, ?_⟩
          have hj : (curReqs :: files').flatten = curReqs ++ files'.flatten := rfl
          rw [hj, List.map_append, hn, List.range'_succ]
          simp
      · rw [if_neg hseal] at h
        obtain ⟨n, hn⟩ := ih _ _ _ _ _ h
        refine ⟨n + 1, ?_⟩
        rw [hn]
        simp only [List.map_append, List.map_cons, List.map_nil]
        rw [List.range'_succ]
        simp

/-- **C9** (confirmed): whenever the packer completes, the numeric parts
of the `custom_id` values, read across all batch files in order, form
the gapless sequence `1, 2, 3, …`. -/
theorem custom_id_sequence (sysMsg : List Char) (tk : List Char → Nat)
    (enc : List Char → List Nat) (text : List Char)
    (files : List (List Request))
    (h : file_to_jsonl sysMsg tk enc text = .ok files) :
    files.flatten.map Request.custom_id = List.range' 1 files.flatten.length := by
  unfold file_to_jsonl at h
  obtain ⟨n, hn⟩ := packGo_ids enc (tk sysMsg) 89900 500 _ [] 0 0 1 files h
  simp only [List.map_nil, List.nil_append] at hn
  have hlen : files.flatten.length = n := by
    have h2 := congrArg List.length hn
    simp only [List.length_map, List.length_range'] at h2
    exact h2
  rw [hn, hlen]

/-- **C9 witness**: the concrete run on `"ab"` under the length-scaled
tokenizer yields one file with custom ids `[1, 2] = range' 1 2`. -/
theorem custom_id_sequence_witness :
    c9Files.flatten.map Request.custom_id = List.range' 1 c9Files.flatten.length :=
  custom_id_sequence [] (fun s => 1000 * s.length) (fun s => s.map Char.toNat)
    "ab".toList c9Files (by decide)

theorem packGo_budgets (enc : List Char → List Nat) (sysT maxB maxR : Nat)
    (hmaxR : 0 < maxR) :
    ∀ (chunks : List ChunkV) (curReqs : List Request) (reqCount gid : Nat)
      (files : List (List Request)),
      packGo enc sysT maxB maxR chunks curReqs (fileCost curReqs) reqCount gid =
        .ok files →
      reqCount = curReqs.length →
      (fileCost curReqs ≤ maxB ∨ ∃ r, curReqs = [r] ∧ maxB < r.cost) →
      curReqs.length ≤ maxR →
      ∀ file ∈ files, file.length ≤ maxR ∧
        (fileCost file ≤ maxB ∨ ∃ r, file = [r] ∧ maxB < r.cost) := by
  intro chunks
  induction chunks with
  | nil =>
    intro curReqs reqCount gid files h hcount hdisj hlen file hfile
    simp only [packGo] at h
    by_cases hc : curReqs ≠ []
    · rw [if_pos hc] at h
      cases h
      simp only [List.mem_singleton] at hfile
      subst hfile
      exact ⟨hlen, hdisj⟩
    · rw [if_neg hc] at h
      cases h
      simp at hfile
  | cons ch rest ih =>
    intro curReqs reqCount gid files h hcount hdisj hlen file hfile
    simp only [packGo] at h
    cases henc : encV enc ch with
    | error e => rw [henc] at h; cases h
    | ok toks =>
      rw [henc] at h
      simp only at h
      by_cases hseal : (decide (fileCost curReqs + (sysT + toks.length + 100) > maxB) ||
          decide (reqCount ≥ maxR)) = true
      · rw [if_pos hseal] at h
        cases hrec : packGo enc sysT maxB maxR rest
            [⟨gid, ch, sysT + toks.length + 100⟩] (sysT + toks.length + 100) 1
            (gid + 1) with
        | error e => rw [hrec] at h; cases h
        | ok files' =>
          rw [hrec] at h
          cases h
          simp only [List.mem_cons] at hfile
          rcases hfile with rfl | hfile
          · exact ⟨hlen, hdisj⟩
          · have hrec' : packGo enc sysT maxB maxR rest
                [⟨gid, ch, sysT + toks.length + 100⟩]
                (fileCost [⟨gid, ch, sysT + toks.length + 100⟩]) 1 (gid + 1) =
                .ok files' := by
              simpa [fileCost] using hrec
            refine ih _ _ _ _ hrec' (by simp) ?_ (by simpa using hmaxR) file hfile
            by_cases hover : sysT + toks.length + 100 ≤ maxB
            · left; simpa [fileCost] using hover
            · right
              exact ⟨_, rfl, by simp [fileCost]; omega⟩
      · rw [if_neg hseal] at h
        simp only [Bool.or_eq_true, decide_eq_true_eq, not_or, not_lt, not_le] at hseal
        obtain ⟨htok, hcnt⟩ := hseal
        have h' : packGo enc sysT maxB maxR rest
            (curReqs ++ [⟨gid, ch, sysT + toks.length + 100⟩])
            (fileCost (curReqs ++ [⟨gid, ch, sysT + toks.length + 100⟩]))
            (reqCount + 1) (gid + 1) = .ok files := by
          simpa [fileCost_append, fileCost] using h
        refine ih _ _ _ _ h' (by simp [hcount]) ?_ ?_ file hfile
        · left
          rw [fileCost_append]
          simpa [fileCost] using htok
        · simp only [List.length_append, List.length_cons, List.length_nil]
          omega

/-- **C10 counterexample**: the claim that every sealed batch file's
cumulative token cost is at most the 89,900 budget is false: with system
message `"x"` and a tokenizer charging 90,000 tokens per character, the
input `"ab"` produces `c10Files`, whose second file consists of one
request of cost 90,100 > 89,900 (a single oversized request is packed
into its own over-budget file; an empty file is also sealed before
it). -/
theorem batch_budget_counterexample :
    file_to_jsonl ('x' :: []) (fun s => 90000 * s.length)
        (fun s => s.map Char.toNat) "ab".toList = .ok c10Files ∧
    ∃ file ∈ c10Files, 89900 < fileCost file := by decide

/-- **C10** (amended): whenever the packer completes, every written
batch file (the trailing partial file included) holds at most 500
requests, and its cumulative token cost — the fixed 100-token
per-request overhead and the system-message tokens included — is at most
89,900 unless the file consists of a single request whose own cost
already exceeds that budget. -/
theorem batch_budgets (sysMsg : List Char) (tk : List Char → Nat)
    (enc : List Char → List Nat) (text : List Char)
    (files : List (List Request))
    (h : file_to_jsonl sysMsg tk enc text = .ok files) :
    ∀ file ∈ files, file.length ≤ 500 ∧
      (fileCost file ≤ 89900 ∨ ∃ r, file = [r] ∧ 89900 < r.cost) := by
  unfold file_to_jsonl at h
  exact packGo_budgets enc (tk sysMsg) 89900 500 (by omega) _ [] 0 1 files
    (by simpa [fileCost] using h) rfl (by left; simp [fileCost]) (by simp)

/-- **C10 amended, witness**: the theorem applied to the concrete
over-budget run, at its second written file — a single request whose own
cost exceeds the budget. -/
theorem batch_budgets_witness :
    (c10Files.getD 1 []).length ≤ 500 ∧ 89900 < fileCost (c10Files.getD 1 []) := by
  have h := batch_budgets ('x' :: []) (fun s => 90000 * s.length)
    (fun s => s.map Char.toNat) "ab".toList c10Files (by decide)
    (c10Files.getD 1 []) (by decide)
  refine ⟨h.1, ?_⟩
  rcases h.2 with h2 | ⟨r, hr, hr2⟩
  · exact absurd h2 (by decide)
  · rw [hr]
    simpa [fileCost] using hr2


/-! ## String helper lemmas for the chunker -/

theorem isSuffixOf_iff (p s : List Char) :
    p.isSuffixOf s = true ↔ ∃ pre, s = pre ++ p := by
  rw [List.isSuffixOf, isPrefixOf_iff]
  constructor
  · rintro ⟨t, ht⟩
    refine ⟨t.reverse, ?_⟩
    have := congrArg List.reverse ht
    simpa using this
  · rintro ⟨pre, rfl⟩
    exact ⟨pre.reverse, by simp⟩

theorem Infx_take (s : List Char) (n : Nat) : Infx (s.take n) s :=
  ⟨[], s.drop n, by simp⟩

theorem dropWhile_suffix (p : Char → Bool) (s : List Char) :
    ∃ x, s = x ++ s.dropWhile p :=
  ⟨s.takeWhile p, (List.takeWhile_append_dropWhile ..).symm⟩

theorem pyStrip_infx (s : List Char) : Infx (pyStrip s) s := by
  obtain ⟨x, hx⟩ := dropWhile_suffix Char.isWhitespace s
  obtain ⟨y, hy⟩ := dropWhile_suffix Char.isWhitespace
    (s.dropWhile Char.isWhitespace).reverse
  refine ⟨x, y.reverse, ?_⟩
  have hdw : s.dropWhile Char.isWhitespace = pyStrip s ++ y.reverse := by
    have h2 := congrArg List.reverse hy
    simpa [pyStrip] using h2
  conv_lhs => rw [hx, hdw]
  simp

/-- When a list with a short right block ends in `t`, the cut decomposes:
the right block is the tail of `t` and the head of `t` closes the left
block. -/
theorem suffix_split {A q pre t : List Char} (h : A ++ q = pre ++ t)
    (hlen : q.length ≤ t.length) :
    q = t.drop (t.length - q.length) ∧
    A = pre ++ t.take (t.length - q.length) := by
  have ht : t.take (t.length - q.length) ++ t.drop (t.length - q.length) = t := by simp
  have hlen2 : q.length = (t.drop (t.length - q.length)).length := by
    simp only [List.length_drop]
    omega
  have h2 : A ++ q =
      (pre ++ t.take (t.length - q.length)) ++ t.drop (t.length - q.length) := by
    rw [List.append_assoc, ht]
    exact h
  obtain ⟨h3, h4⟩ := List.append_inj' h2 hlen2
  exact ⟨h4, h3⟩

/-- A suffix no longer than the right block of an append is a suffix of
that block. -/
theorem suffix_within {x y a : List Char} (pre : List Char)
    (h : x ++ y = pre ++ a) (hlen : a.length ≤ y.length) :
    ∃ pre2, y = pre2 ++ a := by
  have hy : y.take (y.length - a.length) ++ y.drop (y.length - a.length) = y := by simp
  have hlen2 : (y.drop (y.length - a.length)).length = a.length := by
    simp only [List.length_drop]
    omega
  have h2 : (x ++ y.take (y.length - a.length)) ++ y.drop (y.length - a.length) =
      pre ++ a := by
    rw [List.append_assoc, hy]
    exact h
  obtain ⟨_, h4⟩ := List.append_inj' h2 hlen2
  refine ⟨y.take (y.length - a.length), ?_⟩
  calc y = y.take (y.length - a.length) ++ y.drop (y.length - a.length) := hy.symm
    _ = y.take (y.length - a.length) ++ a := by rw [h4]

/-! ## matchTag and split-part shape lemmas -/

theorem tag1_eq : tag1 = ['{', '{', 't', 'a', 'g', '_', '1', '}', '}'] := by decide

theorem takeWhile_digits_append (d t : List Char) (hd : ∀ c ∈ d, c.isDigit = true)
    (ht : ∀ h ∈ t.head?, h.isDigit = false) :
    (d ++ t).takeWhile Char.isDigit = d ∧ (d ++ t).dropWhile Char.isDigit = t := by
  induction d with
  | nil =>
    cases t with
    | nil => simp
    | cons c cs =>
      have := ht c (by simp)
      simp [List.takeWhile, List.dropWhile, this]
  | cons c cs ih =>
    have hc := hd c (by simp)
    have ih2 := ih (fun x hx => hd x (by simp [hx]))
    simp only [List.cons_append, List.takeWhile, List.dropWhile, hc, List.append_eq]
    exact ⟨by rw [ih2.1], ih2.2⟩

theorem digitChar_isDigit (n : Nat) (h : n < 10) : (digitChar n).isDigit = true := by
  interval_cases n <;> decide

theorem digs_isDigit (k : Nat) : ∀ c ∈ digs k, c.isDigit = true := by
  induction k using Nat.strong_induction_on with
  | _ k ih =>
    rw [digs_eq]
    by_cases h : k < 10
    · simp only [h, if_true, List.mem_singleton]
      rintro c rfl
      exact digitChar_isDigit k h
    · simp only [h, if_false, List.mem_append, List.mem_singleton]
      rintro c (hc | rfl)
      · exact ih (k / 10) (by omega) c hc
      · exact digitChar_isDigit (k % 10) (by omega)

theorem marker_take (s : List Char) : (marker ++ s).take 6 = marker := by
  rw [show (6 : Nat) = marker.length from rfl]
  exact List.take_left ..

theorem marker_drop (s : List Char) : (marker ++ s).drop 6 = s := by
  rw [show (6 : Nat) = marker.length from rfl]
  exact List.drop_left ..

theorem matchTag_shape {s m rest : List Char} (h : matchTag s = some (m, rest)) :
    IsDelim m ∧ s = m ++ rest := by
  unfold matchTag at h
  by_cases h6 : s.take 6 = marker
  · rw [if_pos h6] at h
    by_cases hd : ((s.drop 6).takeWhile Char.isDigit).isEmpty
    · rw [if_pos hd] at h
      cases h
    · rw [if_neg hd] at h
      by_cases h2 : (((s.drop 6).dropWhile Char.isDigit).take 2) = ['}', '}']
      · rw [if_pos h2] at h
        simp only [Option.some.injEq, Prod.mk.injEq] at h
        obtain ⟨hm, hrest⟩ := h
        constructor
        · refine ⟨(s.drop 6).takeWhile Char.isDigit, by simpa using hd,
            fun c hc => List.mem_takeWhile_imp hc, hm.symm⟩
        · have hsplit : s = marker ++
              ((s.drop 6).takeWhile Char.isDigit ++
                (['}', '}'] ++ ((s.drop 6).dropWhile Char.isDigit).drop 2)) := by
            conv_lhs => rw [← List.take_append_drop 6 s]
            rw [h6]
            congr 1
            conv_lhs =>
              rw [← List.takeWhile_append_dropWhile (p := Char.isDigit) (l := s.drop 6)]
            congr 1
            conv_lhs =>
              rw [← List.take_append_drop 2 ((s.drop 6).dropWhile Char.isDigit)]
            rw [h2]
          rw [hsplit, ← hm, ← hrest]
          simp
      · rw [if_neg h2] at h
        cases h
  · rw [if_neg h6] at h
    cases h

theorem matchTag_idString (k : Nat) (x : List Char) :
    matchTag (idString k ++ x) = some (idString k, x) := by
  have hshape : idString k ++ x = marker ++ (digs k ++ ('}' :: '}' :: x)) := by
    simp [idString]
  have htw := takeWhile_digits_append (digs k) ('}' :: '}' :: x) (digs_isDigit k)
    (by intro h hh; simp at hh; subst hh; decide)
  rw [hshape]
  unfold matchTag
  rw [if_pos (marker_take _)]
  dsimp only
  rw [marker_drop, htw.1, htw.2]
  have hdne : ¬ ((digs k).isEmpty = true) := by
    simp only [List.isEmpty_iff]
    exact digs_ne_nil k
  rw [if_neg hdne]
  rw [if_pos (by simp)]
  simp [idString]

theorem IsDelim.length {p : List Char} (h : IsDelim p) : 9 ≤ p.length := by
  obtain ⟨d, hne, _, rfl⟩ := h
  cases d with
  | nil => exact absurd rfl hne
  | cons c cs =>
    simp only [marker, List.length_append, List.length_cons, List.cons_append,
      List.length_nil]
    omega

theorem IsDelim.ne_nil {p : List Char} (h : IsDelim p) : p ≠ [] := by
  have := h.length
  intro hp
  rw [hp] at this
  simp at this

/-- A placeholder-shaped part whose suffix is `{{tag_1}}` is exactly
`{{tag_1}}`. -/
theorem IsDelim.tag1_suffix {p : List Char} (h : IsDelim p)
    (hs : ∃ pre, p = pre ++ tag1) : p = tag1 := by
  obtain ⟨d, hne, hdig, rfl⟩ := h
  obtain ⟨pre, hpre⟩ := hs
  have htag : tag1 = (marker ++ ['1']) ++ ['}', '}'] := by decide
  rw [htag] at hpre
  have h1 : (marker ++ d) ++ ['}', '}'] = (pre ++ (marker ++ ['1'])) ++ ['}', '}'] := by
    rw [List.append_assoc, List.append_assoc]
    exact hpre
  have h2 := (List.append_inj' h1 rfl).1
  rcases List.eq_nil_or_concat d with rfl | ⟨d', c, rfl⟩
  · exact absurd rfl hne
  · simp only [List.concat_eq_append] at hne hdig h2 ⊢
    have h3 : (marker ++ d') ++ [c] = (pre ++ marker) ++ ['1'] := by
      rw [List.append_assoc, List.append_assoc]
      exact h2
    have h4 := List.append_inj' h3 rfl
    have hc : c = '1' := by simpa using h4.2
    have h5 : marker ++ d' = pre ++ marker := h4.1
    rcases List.eq_nil_or_concat d' with rfl | ⟨d'', c2, rfl⟩
    · subst hc
      decide
    · exfalso
      simp only [List.concat_eq_append] at hdig h5
      have hm : pre ++ marker = (pre ++ marker.take 5) ++ ['_'] := by
        conv_lhs => rw [show marker = marker.take 5 ++ ['_'] from by decide]
        rw [List.append_assoc]
      have h6 : (marker ++ d'') ++ [c2] = (pre ++ marker.take 5) ++ ['_'] := by
        rw [List.append_assoc, h5]
        exact hm
      have h7 := List.append_inj' h6 rfl
      have hc2 : c2 = '_' := by simpa using h7.2
      have hmem : c2 ∈ d'' ++ [c2] ++ [c] := by simp
      have hdig2 := hdig c2 hmem
      rw [hc2] at hdig2
      exact absurd hdig2 (by decide)

/-- A region in which no scan position matched is free of placeholder
substrings. -/
theorem cleanT_of_nomatch (acc s : List Char)
    (hacc : ∀ a1 a2, acc = a1 ++ a2 → a2 ≠ [] → matchTag (a2 ++ s) = none) :
    CleanT acc := by
  rintro k ⟨x, y, hxy⟩
  have h1 := hacc x (idString k ++ y)
    (by rw [hxy, List.append_assoc]) (by simp [idString_ne_nil k])
  rw [List.append_assoc, matchTag_idString] at h1
  cases h1

theorem splitTags_spec : ∀ (fuel : Nat) (acc s : List Char), s.length ≤ fuel →
    (∀ a1 a2, acc = a1 ++ a2 → a2 ≠ [] → matchTag (a2 ++ s) = none) →
    (∀ p ∈ (splitTags fuel acc s).filter (fun p => p ≠ []), PartOk p) ∧
    NoTwoTexts ((splitTags fuel acc s).filter (fun p => p ≠ [])) := by
  intro fuel
  induction fuel with
  | zero =>
    intro acc s hlen hacc
    have hs : s = [] := by
      cases s with
      | nil => rfl
      | cons c cs => simp at hlen
    subst hs
    simp only [splitTags, List.append_nil]
    by_cases hne : acc = []
    · subst hne
      simp [NoTwoTexts]
    · rw [List.filter_cons, if_pos (by simpa using hne), List.filter_nil]
      refine ⟨?_, List.chain'_singleton acc⟩
      intro p hp
      simp only [List.mem_singleton] at hp
      subst hp
      refine Or.inr ⟨hne, cleanT_of_nomatch _ [] ?_⟩
      intro a1 a2 h1 h2
      simpa using hacc a1 a2 h1 h2
  | succ f ih =>
    intro acc s hlen hacc
    cases s with
    | nil =>
      simp only [splitTags]
      by_cases hne : acc = []
      · subst hne
        simp [NoTwoTexts]
      · rw [List.filter_cons, if_pos (by simpa using hne), List.filter_nil]
        refine ⟨?_, List.chain'_singleton acc⟩
        intro p hp
        simp only [List.mem_singleton] at hp
        subst hp
        exact Or.inr ⟨hne, cleanT_of_nomatch _ [] hacc⟩
    | cons c cs =>
      simp only [splitTags]
      cases hmt : matchTag (c :: cs) with
      | none =>
        have hacc' : ∀ a1 a2, acc ++ [c] = a1 ++ a2 → a2 ≠ [] →
            matchTag (a2 ++ cs) = none := by
          intro a1 a2 heq h2ne
          rcases List.eq_nil_or_concat a2 with rfl | ⟨a2', c2, rfl⟩
          · exact absurd rfl h2ne
          · simp only [List.concat_eq_append] at heq ⊢
            have heq2 : acc ++ [c] = (a1 ++ a2') ++ [c2] := by
              rw [heq, List.append_assoc]
            obtain ⟨hacc2, hc2⟩ := List.append_inj' heq2 rfl
            have hcc : c = c2 := by simpa using hc2
            subst hcc
            rw [List.append_assoc]
            by_cases ha2 : a2' = []
            · subst ha2
              simpa using hmt
            · exact hacc a1 a2' hacc2 ha2
        exact ih (acc ++ [c]) cs (by simpa using Nat.le_of_succ_le_succ hlen) hacc'
      | some mr =>
        obtain ⟨m, rest⟩ := mr
        obtain ⟨hdelim, hsplit⟩ := matchTag_shape hmt
        have hrest : rest.length ≤ f := by
          have h9 := hdelim.length
          have hlen2 := congrArg List.length hsplit
          simp only [List.length_cons, List.length_append] at hlen2
          simp only [List.length_cons] at hlen
          omega
        have hrec := ih [] rest hrest (by intro a1 a2 h1 h2; exfalso
                                          rcases List.append_eq_nil.mp h1.symm with ⟨_, h3⟩
                                          exact h2 h3)
        have hPacc : acc ≠ [] → PartOk acc :=
          fun hne => Or.inr ⟨hne, cleanT_of_nomatch acc (c :: cs) hacc⟩
        by_cases hne : acc = []
        · subst hne
          rw [List.filter_cons, if_neg (by simp), List.filter_cons,
            if_pos (by simpa using hdelim.ne_nil)]
          constructor
          · intro p hp
            simp only [List.mem_cons] at hp
            rcases hp with rfl | hp
            · exact Or.inl hdelim
            · exact hrec.1 p hp
          · rw [NoTwoTexts] at hrec ⊢
            rw [List.chain'_cons']
            exact ⟨fun b _ => Or.inl hdelim, hrec.2⟩
        · rw [List.filter_cons, if_pos (by simpa using hne), List.filter_cons,
            if_pos (by simpa using hdelim.ne_nil)]
          constructor
          · intro p hp
            simp only [List.mem_cons] at hp
            rcases hp with rfl | rfl | hp
            · exact hPacc hne
            · exact Or.inl hdelim
            · exact hrec.1 p hp
          · rw [NoTwoTexts] at hrec ⊢
            rw [List.chain'_cons']
            refine ⟨fun b hb => ?_, ?_⟩
            · simp only [List.head?_cons, Option.mem_def, Option.some.injEq] at hb
              subst hb
              exact Or.inr hdelim
            rw [List.chain'_cons']
            exact ⟨fun b _ => Or.inl hdelim, hrec.2⟩

/-- Every nonempty part of the split is a whole placeholder or
placeholder-free text, and no two text parts are adjacent. -/
theorem partsOf_spec (text : List Char) :
    (∀ p ∈ partsOf text, PartOk p) ∧ NoTwoTexts (partsOf text) := by
  refine splitTags_spec text.length [] text le_rfl ?_
  intro a1 a2 h1 h2
  exfalso
  rcases List.append_eq_nil.mp h1.symm with ⟨_, h3⟩
  exact h2 h3

/-- The last character of matching single-element append tails agree. -/
theorem delim_ends (d pre3 X0 : List Char) (c : Char)
    (h : marker ++ d ++ ['}', '}'] = pre3 ++ (X0 ++ [c])) : c = '}' := by
  have h1 : (marker ++ (d ++ ['}'])) ++ ['}'] = (pre3 ++ X0) ++ [c] := by
    calc (marker ++ (d ++ ['}'])) ++ ['}'] = marker ++ d ++ ['}', '}'] := by simp
      _ = pre3 ++ (X0 ++ [c]) := h
      _ = (pre3 ++ X0) ++ [c] := by simp
  simpa using ((List.append_inj' h1 rfl).2).symm

theorem delim_ends2 (d pre3 X0 : List Char) (c1 c2 : Char)
    (h : marker ++ d ++ ['}', '}'] = pre3 ++ (X0 ++ [c1, c2])) :
    c1 = '}' ∧ c2 = '}' := by
  have h1 : (marker ++ (d ++ ['}'])) ++ ['}'] = ((pre3 ++ X0) ++ [c1]) ++ [c2] := by
    calc (marker ++ (d ++ ['}'])) ++ ['}'] = marker ++ d ++ ['}', '}'] := by simp
      _ = pre3 ++ (X0 ++ [c1, c2]) := h
      _ = ((pre3 ++ X0) ++ [c1]) ++ [c2] := by simp
  have h2 := List.append_inj' h1 rfl
  have hc2 : c2 = '}' := by simpa using h2.2.symm
  have h4 : (marker ++ d) ++ ['}'] = (pre3 ++ X0) ++ [c1] := by
    rw [List.append_assoc]
    exact h2.1
  have hc1 : c1 = '}' := by simpa using ((List.append_inj' h4 rfl).2).symm
  exact ⟨hc1, hc2⟩

/-- No proper, nonempty prefix of `{{tag_1}}` of length 1-8 is a suffix
of a placeholder-shaped string `{{tag_<d>}}`. -/
theorem delim_take_tag1 (d pre3 : List Char) (j : Nat) (hj1 : 1 ≤ j) (hj8 : j ≤ 8)
    (hp3 : marker ++ d ++ ['}', '}'] = pre3 ++ tag1.take j) : False := by
  interval_cases j
  · have hX : tag1.take 1 = [] ++ ['{'] := by decide
    rw [hX] at hp3
    exact absurd (delim_ends d pre3 [] '{' hp3) (by decide)
  · have hX : tag1.take 2 = ['{'] ++ ['{'] := by decide
    rw [hX] at hp3
    exact absurd (delim_ends d pre3 ['{'] '{' hp3) (by decide)
  · have hX : tag1.take 3 = ['{', '{'] ++ ['t'] := by decide
    rw [hX] at hp3
    exact absurd (delim_ends d pre3 ['{', '{'] 't' hp3) (by decide)
  · have hX : tag1.take 4 = ['{', '{', 't'] ++ ['a'] := by decide
    rw [hX] at hp3
    exact absurd (delim_ends d pre3 ['{', '{', 't'] 'a' hp3) (by decide)
  · have hX : tag1.take 5 = ['{', '{', 't', 'a'] ++ ['g'] := by decide
    rw [hX] at hp3
    exact absurd (delim_ends d pre3 ['{', '{', 't', 'a'] 'g' hp3) (by decide)
  · have hX : tag1.take 6 = ['{', '{', 't', 'a', 'g'] ++ ['_'] := by decide
    rw [hX] at hp3
    exact absurd (delim_ends d pre3 ['{', '{', 't', 'a', 'g'] '_' hp3) (by decide)
  · have hX : tag1.take 7 = ['{', '{', 't', 'a', 'g', '_'] ++ ['1'] := by decide
    rw [hX] at hp3
    exact absurd (delim_ends d pre3 ['{', '{', 't', 'a', 'g', '_'] '1' hp3) (by decide)
  · have hX : tag1.take 8 = ['{', '{', 't', 'a', 'g', '_'] ++ ['1', '}'] := by decide
    rw [hX] at hp3
    exact absurd (delim_ends2 d pre3 ['{', '{', 't', 'a', 'g', '_'] '1' '}' hp3).1 (by decide)

/-- If the concatenation of well-shaped, properly separated parts ends
with the continuation placeholder string `{{tag_1}}`, then the last part
is exactly that placeholder. -/
theorem flatten_tag1_last (qs : List (List Char))
    (hok : ∀ q ∈ qs, PartOk q) (hchain : NoTwoTexts qs) (pre : List Char)
    (hsuf : qs.flatten = pre ++ tag1) :
    ∃ qs', qs = qs' ++ [tag1] := by
  rcases List.eq_nil_or_concat qs with rfl | ⟨qs', q, rfl⟩
  · exfalso
    have := congrArg List.length hsuf
    rw [tag1_eq] at this
    simp at this
  · simp only [List.concat_eq_append] at hok hchain hsuf ⊢
    have hflat : (qs' ++ [q]).flatten = qs'.flatten ++ q := by simp
    rw [hflat] at hsuf
    have hq : PartOk q := hok q (by simp)
    by_cases hq9 : 9 ≤ q.length
    · have h9 : tag1.length ≤ q.length := by rw [tag1_eq]; simpa using hq9
      obtain ⟨pre2, hq2⟩ := suffix_within pre hsuf h9
      rcases hq with hdel | ⟨hne, hclean⟩
      · have := hdel.tag1_suffix ⟨pre2, hq2⟩
        exact ⟨qs', by rw [this]⟩
      · exfalso
        refine hclean 1 ⟨pre2, [], ?_⟩
        rw [hq2]
        simp [tag1]
    · exfalso
      have hqne : q ≠ [] := by
        rcases hq with hdel | ⟨hne, _⟩
        · exact hdel.ne_nil
        · exact hne
      have hqlen : 1 ≤ q.length ∧ q.length ≤ 8 := by
        constructor
        · cases q with
          | nil => exact absurd rfl hqne
          | cons a l => simp
        · omega
      have hqtext : ¬ IsDelim q := fun hdel => hq9 hdel.length
      have h9' : q.length ≤ tag1.length := by rw [tag1_eq]; simp; omega
      obtain ⟨hqdrop, hA⟩ := suffix_split hsuf h9'
      rcases List.eq_nil_or_concat qs' with rfl | ⟨qs'', q', rfl⟩
      · have := congrArg List.length hA
        rw [tag1_eq] at this
        simp at this
        omega
      · simp only [List.concat_eq_append] at hA hchain hok
        have hdelim' : IsDelim q' := by
          have hr : IsDelim q' ∨ IsDelim q := by
            have hch := hchain
            rw [NoTwoTexts, List.chain'_append] at hch
            refine hch.2.2 q' ?_ q (by simp)
            rw [List.getLast?_concat]
            simp
          rcases hr with h | h
          · exact h
          · exact absurd h hqtext
        have hflat2 : (qs'' ++ [q']).flatten = qs''.flatten ++ q' := by simp
        rw [hflat2] at hA
        have hlenX : (tag1.take (tag1.length - q.length)).length ≤ q'.length := by
          have := hdelim'.length
          rw [tag1_eq]
          simp only [List.length_take, tag1_eq, List.length_cons, List.length_nil]
          omega
        obtain ⟨pre3, hp3⟩ := suffix_within pre hA hlenX
        obtain ⟨d, hdne, hddig, hq'd⟩ := hdelim'
        rw [hq'd] at hp3
        set j := tag1.length - q.length with hjdef
        have hj1 : 1 ≤ j := by rw [hjdef, tag1_eq]; simp; omega
        have hj8 : j ≤ 8 := by rw [hjdef, tag1_eq]; simp; omega
        clear_value j
        exact delim_take_tag1 d pre3 j hj1 hj8 hp3

/-! ## Claim C5: chunk size bound -/

theorem tk_flatten_le (tk : List Char → Nat) (hnil : tk [] = 0)
    (hsub : ∀ a b, tk (a ++ b) ≤ tk a + tk b) :
    ∀ bs : List (List Char), tk bs.flatten ≤ (bs.map tk).sum := by
  intro bs
  induction bs with
  | nil => simp [hnil]
  | cons b bs ih =>
    have h1 : tk ((b :: bs).flatten) ≤ tk b + tk bs.flatten := by
      have : (b :: bs).flatten = b ++ bs.flatten := rfl
      rw [this]
      exact hsub b bs.flatten
    calc tk ((b :: bs).flatten) ≤ tk b + tk bs.flatten := h1
      _ ≤ tk b + (bs.map tk).sum := by omega
      _ = ((b :: bs).map tk).sum := by simp

theorem tag1_flatten_eq : tag1.length = 9 := by decide

theorem splitChunksGo_bound (tk : List Char → Nat) (maxT : Int)
    (hnil : tk [] = 0) (hsub : ∀ a b, tk (a ++ b) ≤ tk a + tk b)
    (hinfx : ∀ a b, Infx a b → tk a ≤ tk b) (hmax : 0 ≤ maxT)
    (P : List (List Char)) (hP : ∀ p ∈ P, PartOk p) :
    ∀ (ps bs : List (List Char)) (curLen : Nat),
      (∀ p ∈ ps, p ∈ P) →
      curLen = (bs.map tk).sum →
      (10 * (curLen : Int) ≤ 9 * maxT ∨ (∃ p ∈ P, bs = [p]) ∨
        (∃ p ∈ P, bs = [tag1 ++ p])) →
      ∀ c ∈ splitChunksGo tk maxT ps bs.flatten curLen,
        10 * (tk c : Int) ≤ 9 * maxT ∨ (∃ p ∈ P, c = pyStrip p) ∨
        (∃ p ∈ P, c = pyStrip (tag1 ++ p)) := by
  have emit : ∀ (bs : List (List Char)) (curLen : Nat),
      curLen = (bs.map tk).sum →
      (10 * (curLen : Int) ≤ 9 * maxT ∨ (∃ p ∈ P, bs = [p]) ∨
        (∃ p ∈ P, bs = [tag1 ++ p])) →
      10 * (tk (pyStrip bs.flatten) : Int) ≤ 9 * maxT ∨
        (∃ p ∈ P, pyStrip bs.flatten = pyStrip p) ∨
        (∃ p ∈ P, pyStrip bs.flatten = pyStrip (tag1 ++ p)) := by
    intro bs curLen hsum htri
    rcases htri with h | ⟨p, hp, rfl⟩ | ⟨p, hp, rfl⟩
    · left
      have h1 : tk (pyStrip bs.flatten) ≤ tk bs.flatten :=
        hinfx _ _ (pyStrip_infx _)
      have h2 : tk bs.flatten ≤ (bs.map tk).sum := tk_flatten_le tk hnil hsub bs
      omega
    · right; left
      exact ⟨p, hp, by simp⟩
    · right; right
      exact ⟨p, hp, by simp⟩
  intro ps
  induction ps with
  | nil =>
    intro bs curLen hmem hsum htri c hc
    simp only [splitChunksGo] at hc
    by_cases hne : pyStrip bs.flatten ≠ []
    · rw [if_pos hne] at hc
      simp only [List.mem_singleton] at hc
      subst hc
      exact emit bs curLen hsum htri
    · rw [if_neg hne] at hc
      simp at hc
  | cons p ps ih =>
    intro bs curLen hmem hsum htri c hc
    have hpP : p ∈ P := hmem p (by simp)
    have hmem' : ∀ q ∈ ps, q ∈ P := fun q hq => hmem q (by simp [hq])
    simp only [splitChunksGo] at hc
    by_cases hcond : ((curLen : Int) + tk p) * 10 > maxT * 9
    · rw [if_pos hcond] at hc
      by_cases hsfx : tag1.isSuffixOf bs.flatten = true
      · rw [if_pos hsfx] at hc
        obtain ⟨pre, hpre⟩ := (isSuffixOf_iff _ _).mp hsfx
        simp only [List.mem_cons] at hc
        rcases hc with rfl | hc
        · rcases htri with h | ⟨q, hq, hbs⟩ | ⟨q, hq, hbs⟩
          · left
            have h1 : tk (pyStrip (bs.flatten.take (bs.flatten.length - 9))) ≤
                tk bs.flatten := by
              refine Nat.le_trans (hinfx _ _ (pyStrip_infx _)) ?_
              exact hinfx _ _ (Infx_take _ _)
            have h2 : tk bs.flatten ≤ (bs.map tk).sum := tk_flatten_le tk hnil hsub bs
            omega
          · subst hbs
            have hflat : ([q] : List (List Char)).flatten = q := by simp
            rw [hflat] at hpre ⊢
            rcases hP q hq with hdel | ⟨hqne, hclean⟩
            · have hq1 : q = tag1 := hdel.tag1_suffix ⟨pre, hpre⟩
              subst hq1
              left
              have hz : pyStrip (tag1.take (tag1.length - 9)) = [] := by decide
              rw [hz, hnil]
              omega
            · exact absurd ⟨pre, [], by rw [hpre]; simp [tag1]⟩ (hclean 1)
          · subst hbs
            have hflat : ([tag1 ++ q] : List (List Char)).flatten = tag1 ++ q := by
              simp
            rw [hflat] at hpre ⊢
            by_cases h9 : 9 ≤ q.length
            · obtain ⟨pre2, hq2⟩ := suffix_within pre hpre
                (by rw [tag1_flatten_eq]; exact h9)
            
              rcases hP q hq with hdel | ⟨hqne, hclean⟩
              · have hq1 : q = tag1 := hdel.tag1_suffix ⟨pre2, hq2⟩
                subst hq1
                right; left
                refine ⟨tag1, hq, ?_⟩
                have : (tag1 ++ tag1).take ((tag1 ++ tag1).length - 9) = tag1 := by
                  decide
                rw [this]
              · exact absurd ⟨pre2, [], by rw [hq2]; simp [tag1]⟩ (hclean 1)
            · exfalso
              have hqne : q ≠ [] := by
                rcases hP q hq with hdel | ⟨hqne, _⟩
                · exact hdel.ne_nil
                · exact hqne
              have hq1 : 1 ≤ q.length := by
                cases q with
                | nil => exact absurd rfl hqne
                | cons a l => simp
              obtain ⟨hdrop, htake⟩ := suffix_split hpre
                (by rw [tag1_flatten_eq]; omega)
              have htag : marker ++ ['1'] ++ ['}', '}'] = tag1 := by decide
              refine delim_take_tag1 ['1'] pre (tag1.length - q.length)
                (by rw [tag1_flatten_eq]; omega) (by rw [tag1_flatten_eq]; omega) ?_
              rw [htag, ← htake]
        · have hflat : ([tag1 ++ p] : List (List Char)).flatten = tag1 ++ p := by simp
          rw [← hflat] at hc
          refine ih [tag1 ++ p] (tk (([tag1 ++ p] : List (List Char)).flatten)) hmem' (by simp) ?_ c hc
          right; right
          exact ⟨p, hpP, rfl⟩
      · rw [if_neg hsfx] at hc
        simp only [List.mem_cons] at hc
        rcases hc with rfl | hc
        · exact emit bs curLen hsum htri
        · have hflat : ([p] : List (List Char)).flatten = p := by simp
          rw [← hflat] at hc
          refine ih [p] (tk (([p] : List (List Char)).flatten)) hmem' (by simp) ?_ c hc
          right; left
          exact ⟨p, hpP, rfl⟩
    · rw [if_neg hcond] at hc
      have hflat : (bs ++ [p]).flatten = bs.flatten ++ p := by simp
      rw [← hflat] at hc
      refine ih (bs ++ [p]) (curLen + tk p) hmem' (by simp [hsum]) ?_ c hc
      left
      push_cast
      omega

/-- **C5 counterexample**: the claim that every chunk's token count is
at most 90% of the configured maximum except single-atomic-part chunks
is false: with the length tokenizer and `max_tokens = 20`, the text
`"aaaaaaaaa{{tag_1}}pppppppppp{{tag_2}}"` produces the chunk
`"{{tag_1}}pppppppppp"` — the carried-over continuation placeholder plus
a text part — whose 19 tokens exceed `0.9 * 20 = 18`, and which is not
the strip of any single part of the text. -/
theorem chunk_size_counterexample :
    ∃ c ∈ split_text_into_chunks_with_tags List.length c5Text 20,
      ¬ (10 * (c.length : Int) ≤ 9 * 20) ∧
      ¬ ∃ p ∈ partsOf c5Text, c = pyStrip p := by decide

/-- **C5** (amended): for a tokenizer that charges nothing for the empty
string, is subadditive over concatenation and monotone on substrings,
and a nonnegative configured maximum, every chunk's token count is at
most 90% of the maximum (`10·tk(c) ≤ 9·max`, the float comparison made
exact) unless the chunk consists of a single atomic part, or of the
continuation placeholder `{{tag_1}}` carried over in front of a single
atomic part, in which case it may exceed the threshold. -/
theorem chunk_size_bound (tk : List Char → Nat) (maxT : Int) (text : List Char)
    (hnil : tk [] = 0) (hsub : ∀ a b, tk (a ++ b) ≤ tk a + tk b)
    (hinfx : ∀ a b, Infx a b → tk a ≤ tk b) (hmax : 0 ≤ maxT) :
    ∀ c ∈ split_text_into_chunks_with_tags tk text maxT,
      10 * (tk c : Int) ≤ 9 * maxT ∨ (∃ p ∈ partsOf text, c = pyStrip p) ∨
      (∃ p ∈ partsOf text, c = pyStrip (tag1 ++ p)) := by
  unfold split_text_into_chunks_with_tags
  exact splitChunksGo_bound tk maxT hnil hsub hinfx hmax (partsOf text)
    (partsOf_spec text).1 (partsOf text) [] 0 (fun p hp => hp) rfl
    (Or.inl (by omega))

/-- **C5 witness**: the theorem applied at the counterexample data (the
length tokenizer satisfies all three tokenizer hypotheses), at the run's
first chunk, which is within the 90% threshold. -/
theorem chunk_size_bound_witness :
    10 * (((split_text_into_chunks_with_tags List.length c5Text 20).getD 0 []).length : Int)
      ≤ 9 * 20 := by
  have h := chunk_size_bound List.length 20 c5Text rfl
    (fun a b => by simp)
    (fun a b hab => by obtain ⟨x, y, rfl⟩ := hab; simp; omega)
    (by omega)
    ((split_text_into_chunks_with_tags List.length c5Text 20).getD 0 []) (by decide)
  rcases h with h | h | h
  · exact h
  · decide
  · decide

/-! ## Claim C6: placeholder atomicity -/

theorem splitChunksGo_partition (tk : List Char → Nat) (maxT : Int) :
    ∀ (ps qs : List (List Char)) (curLen : Nat),
      (∀ q ∈ qs ++ ps, PartOk q) → NoTwoTexts (qs ++ ps) →
      ∃ (segs : List (List (List Char))) (dropped : List (List Char)),
        splitChunksGo tk maxT ps qs.flatten curLen =
          segs.map (fun seg => pyStrip seg.flatten) ∧
        segs.flatten ++ dropped = qs ++ ps ∧
        pyStrip dropped.flatten = [] := by
  intro ps
  induction ps with
  | nil =>
    intro qs curLen hok hch
    simp only [splitChunksGo]
    by_cases hne : pyStrip qs.flatten ≠ []
    · rw [if_pos hne]
      exact ⟨[qs], [], by simp, by simp, by decide⟩
    · rw [if_neg hne]
      simp only [not_not] at hne
      exact ⟨[], qs, by simp, by simp, hne⟩
  | cons p ps ih =>
    intro qs curLen hok hch
    simp only [splitChunksGo]
    by_cases hcond : ((curLen : Int) + tk p) * 10 > maxT * 9
    · rw [if_pos hcond]
      by_cases hsfx : tag1.isSuffixOf qs.flatten = true
      · rw [if_pos hsfx]
        obtain ⟨pre, hpre⟩ := (isSuffixOf_iff _ _).mp hsfx
        have hokqs : ∀ q ∈ qs, PartOk q := fun q hq => hok q (by simp [hq])
        have hchqs : NoTwoTexts qs := by
          rw [NoTwoTexts, List.chain'_append] at hch
          exact hch.1
        obtain ⟨qs', hqs'⟩ := flatten_tag1_last qs hokqs hchqs pre hpre
        subst hqs'
        have hflat : (qs' ++ [tag1]).flatten = qs'.flatten ++ tag1 := by simp
        have htake : ((qs' ++ [tag1]).flatten).take
            (((qs' ++ [tag1]).flatten).length - 9) = qs'.flatten := by
          rw [hflat]
          have hlen : (qs'.flatten ++ tag1).length - 9 = qs'.flatten.length := by
            rw [List.length_append, tag1_flatten_eq]
            omega
          rw [hlen]
          rw [show qs'.flatten.length = qs'.flatten.length from rfl]
          exact List.take_left ..
        have hok2 : ∀ q ∈ [tag1, p] ++ ps, PartOk q := by
          intro q hq
          simp only [List.cons_append, List.mem_cons, List.nil_append] at hq
          rcases hq with rfl | rfl | hq
          · exact Or.inl ⟨['1'], by decide, by decide, by decide⟩
          · refine hok _ ?_
            simp only [List.mem_append, List.mem_cons]
            tauto
          · refine hok _ ?_
            simp only [List.mem_append, List.mem_cons]
            tauto
        have hch2 : NoTwoTexts ([tag1, p] ++ ps) := by
          have hch3 : List.Chain' (fun a b => IsDelim a ∨ IsDelim b) (p :: ps) := by
            rw [NoTwoTexts, List.chain'_append] at hch
            exact hch.2.1
          rw [NoTwoTexts]
          simp only [List.cons_append]
          rw [List.chain'_cons']
          refine ⟨?_, hch3⟩
          intro y hy
          exact Or.inl ⟨['1'], by decide, by decide, by decide⟩
        obtain ⟨segs, dropped, h1, h2, h3⟩ := ih [tag1, p] (tk (tag1 ++ p)) hok2 hch2
        have hflat2 : ([tag1, p] : List (List Char)).flatten = tag1 ++ p := by simp
        rw [hflat2] at h1
        refine ⟨qs' :: segs, dropped, ?_, ?_, h3⟩
        · rw [htake, h1]
          simp
        · simp only [List.flatten_cons, List.append_assoc]
          rw [h2]
          rfl
      · rw [if_neg hsfx]
        have hok2 : ∀ q ∈ [p] ++ ps, PartOk q := by
          intro q hq
          simp only [List.cons_append, List.mem_cons, List.nil_append] at hq
          refine hok _ ?_
          simp only [List.mem_append, List.mem_cons]
          tauto
        have hch2 : NoTwoTexts ([p] ++ ps) := by
          rw [NoTwoTexts, List.chain'_append] at hch
          simpa [NoTwoTexts] using hch.2.1
        obtain ⟨segs, dropped, h1, h2, h3⟩ := ih [p] (tk p) hok2 hch2
        have hflat2 : ([p] : List (List Char)).flatten = p := by simp
        rw [hflat2] at h1
        refine ⟨qs :: segs, dropped, ?_, ?_, h3⟩
        · rw [h1]
          simp
        · simp only [List.flatten_cons, List.append_assoc]
          rw [h2]
          rfl
    · rw [if_neg hcond]
      have hok2 : ∀ q ∈ (qs ++ [p]) ++ ps, PartOk q := by
        intro q hq
        refine hok q ?_
        simpa [List.append_assoc] using hq
      have hch2 : NoTwoTexts ((qs ++ [p]) ++ ps) := by
        rw [NoTwoTexts, List.append_assoc]
        simpa [NoTwoTexts] using hch
      obtain ⟨segs, dropped, h1, h2, h3⟩ := ih (qs ++ [p]) (curLen + tk p) hok2 hch2
      have hflat2 : ((qs ++ [p]) : List (List Char)).flatten = qs.flatten ++ p := by
        simp
      rw [hflat2] at h1
      refine ⟨segs, dropped, h1, ?_, h3⟩
      rw [h2]
      simp [List.append_assoc]

/-- **C6** (confirmed): no placeholder is ever split across two chunks:
every nonempty part of the placeholder split is either a whole
`{{tag_N}}` placeholder or placeholder-free text, and the chunker's
output is exactly a list of consecutive segments of that part list —
each chunk is the whitespace-stripped concatenation of the whole parts
of its segment (the possibly dropped trailing segment being whitespace
only), so every placeholder occurrence lands whole inside exactly one
chunk. -/
theorem placeholder_atomicity (tk : List Char → Nat) (maxT : Int)
    (text : List Char) :
    (∀ p ∈ partsOf text, IsDelim p ∨ (p ≠ [] ∧ CleanT p)) ∧
    ∃ (segs : List (List (List Char))) (dropped : List (List Char)),
      split_text_into_chunks_with_tags tk text maxT =
        segs.map (fun seg => pyStrip seg.flatten) ∧
      segs.flatten ++ dropped = partsOf text ∧
      pyStrip dropped.flatten = [] := by
  refine ⟨(partsOf_spec text).1, ?_⟩
  unfold split_text_into_chunks_with_tags
  exact splitChunksGo_partition tk maxT (partsOf text) [] 0
    (by simpa using (partsOf_spec text).1) (by simpa [NoTwoTexts] using (partsOf_spec text).2)

/-! ### Structural laws of `pyReplace` -/

theorem replaceF_nil (f : Nat) (pat rep : List Char) : replaceF f [] pat rep = [] := by
  cases f with
  | zero => rfl
  | succ f =>
    simp only [replaceF]
    by_cases hp : pat.isEmpty = true
    · rw [if_pos hp]
    · have hpre : pat.isPrefixOf ([] : List Char) = false := by
        cases pat with
        | nil => simp [List.isEmpty] at hp
        | cons a l => rfl
      rw [if_neg hp, if_neg (by simp [hpre])]

theorem replaceF_irrel : ∀ (f f' : Nat) (s pat rep : List Char), s.length ≤ f →
    s.length ≤ f' → replaceF f s pat rep = replaceF f' s pat rep := by
  intro f
  induction f with
  | zero =>
    intro f' s pat rep hf hf'
    have hs : s = [] := List.length_eq_zero.mp (by omega)
    subst hs
    rw [replaceF_nil, replaceF_nil]
  | succ f ih =>
    intro f' s pat rep hf hf'
    cases f' with
    | zero =>
      have hs : s = [] := List.length_eq_zero.mp (by omega)
      subst hs
      rw [replaceF_nil, replaceF_nil]
    | succ f' =>
      simp only [replaceF]
      by_cases hp : pat.isEmpty = true
      · rw [if_pos hp, if_pos hp]
      · rw [if_neg hp, if_neg hp]
        have hpl : 1 ≤ pat.length := by
          cases pat with
          | nil => simp [List.isEmpty] at hp
          | cons a l => simp
        by_cases hpre : pat.isPrefixOf s = true
        · rw [if_pos hpre, if_pos hpre]
          rw [ih f' (s.drop pat.length) pat rep
            (by rw [List.length_drop]; omega) (by rw [List.length_drop]; omega)]
        · rw [if_neg hpre, if_neg hpre]
          cases s with
          | nil => rfl
          | cons c cs =>
            simp only [List.length_cons] at hf hf'
            simp only [List.cons.injEq, true_and]
            exact ih f' cs pat rep (by omega) (by omega)

theorem pyReplace_cons_no (c : Char) (s pat rep : List Char) (hne : pat.isEmpty = false)
    (hp : pat.isPrefixOf (c :: s) = false) :
    pyReplace (c :: s) pat rep = c :: pyReplace s pat rep := by
  unfold pyReplace
  simp only [List.length_cons, replaceF]
  rw [if_neg (by simp [hne]), if_neg (by simp [hp])]

theorem replaceF_head (f : Nat) (pat rest rep : List Char) (hne : pat.isEmpty = false)
    (hf : rest.length ≤ f) :
    replaceF (f + 1) (pat ++ rest) pat rep = rep ++ replaceF rest.length rest pat rep := by
  simp only [replaceF]
  rw [if_neg (by simp [hne]), if_pos ((isPrefixOf_iff ..).mpr ⟨rest, rfl⟩), List.drop_left]
  rw [replaceF_irrel f rest.length rest pat rep hf le_rfl]

theorem pyReplace_head (pat rest rep : List Char) (hne : pat.isEmpty = false) :
    pyReplace (pat ++ rest) pat rep = rep ++ pyReplace rest pat rep := by
  have hpl : 1 ≤ pat.length := by
    cases pat with
    | nil => simp [List.isEmpty] at hne
    | cons a l => simp
  have hlen : (pat ++ rest).length = (pat.length - 1 + rest.length) + 1 := by
    rw [List.length_append]; omega
  unfold pyReplace
  rw [hlen, replaceF_head (pat.length - 1 + rest.length) pat rest rep hne (by omega)]

theorem pyReplace_skip (pat rep : List Char) :
    ∀ (A rest : List Char),
    (∀ o, o < A.length → pat.isPrefixOf (A.drop o ++ rest) = false) →
    pyReplace (A ++ rest) pat rep = A ++ pyReplace rest pat rep := by
  intro A
  induction A with
  | nil => intro rest _; simp
  | cons c A' ih =>
    intro rest h
    have h0 : pat.isPrefixOf (c :: (A' ++ rest)) = false := by
      have := h 0 (by simp)
      simpa using this
    have hne : pat.isEmpty = false := by
      cases pat with
      | nil => simp [List.isPrefixOf] at h0
      | cons a l => rfl
    have hrec : ∀ o, o < A'.length → pat.isPrefixOf (A'.drop o ++ rest) = false := by
      intro o ho
      have := h (o + 1) (by simp only [List.length_cons]; omega)
      simpa using this
    simp only [List.cons_append]
    rw [pyReplace_cons_no c (A' ++ rest) pat rep hne h0, ih rest hrec]

/-! ### Placeholder strings cannot match inside one another -/

theorem brace_free_eq : ∀ (a b u w : List Char), (∀ c ∈ a, c ≠ '}') →
    (∀ c ∈ b, c ≠ '}') → a ++ '}' :: u = b ++ '}' :: w → a = b ∧ u = w := by
  intro a
  induction a with
  | nil =>
    intro b u w _ hb he
    cases b with
    | nil => simpa using he
    | cons d b' =>
      simp only [List.nil_append, List.cons_append, List.cons.injEq] at he
      exact absurd he.1.symm (hb d (by simp))
  | cons c a' ih =>
    intro b u w ha hb he
    cases b with
    | nil =>
      simp only [List.cons_append, List.nil_append, List.cons.injEq] at he
      exact absurd he.1 (ha c (by simp))
    | cons d b' =>
      simp only [List.cons_append, List.cons.injEq] at he
      obtain ⟨rfl, h2⟩ := he
      have hr := ih b' u w (fun x hx => ha x (by simp [hx]))
        (fun x hx => hb x (by simp [hx])) h2
      exact ⟨by rw [hr.1], hr.2⟩

theorem idString_cons (k : Nat) :
    idString k = '{' :: '{' :: 't' :: 'a' :: 'g' :: '_' :: (digs k ++ ['}', '}']) := by
  simp [idString, marker]

theorem idString_not_empty (k : Nat) : (idString k).isEmpty = false := by
  rw [idString_cons]; rfl

theorem idString_length_eq (k : Nat) : (idString k).length = (digs k).length + 8 := by
  rw [idString_cons]
  simp only [List.length_cons, List.length_append, List.length_cons, List.length_nil]

/-- Every position of `idString j` other than the start either begins
    `'{' 't'` or begins with a character other than `'{'` — so the
    two-brace opener of another placeholder cannot start there. -/
theorem idString_drop_shape (j o : Nat) (h1 : 1 ≤ o) (h2 : o < (idString j).length) :
    (∃ t, (idString j).drop o = '{' :: 't' :: t) ∨
    (∃ c t, (idString j).drop o = c :: t ∧ c ≠ '{') := by
  by_cases ho : o ≤ 5
  · interval_cases o
    · exact Or.inl ⟨'a' :: 'g' :: '_' :: (digs j ++ ['}', '}']), by rw [idString_cons]; rfl⟩
    · exact Or.inr ⟨'t', 'a' :: 'g' :: '_' :: (digs j ++ ['}', '}']),
        by rw [idString_cons]; rfl, by decide⟩
    · exact Or.inr ⟨'a', 'g' :: '_' :: (digs j ++ ['}', '}']),
        by rw [idString_cons]; rfl, by decide⟩
    · exact Or.inr ⟨'g', '_' :: (digs j ++ ['}', '}']),
        by rw [idString_cons]; rfl, by decide⟩
    · exact Or.inr ⟨'_', digs j ++ ['}', '}'], by rw [idString_cons]; rfl, by decide⟩
  · have ho6 : 6 ≤ o := by omega
    have hX : (idString j).drop o = (digs j ++ ['}', '}']).drop (o - 6) := by
      rw [show idString j = marker ++ (digs j ++ ['}', '}']) from by rw [idString_cons]; rfl,
        List.drop_append_eq_append_drop,
        List.drop_eq_nil_of_le (by rw [show marker.length = 6 from rfl]; omega),
        List.nil_append, show marker.length = 6 from rfl]
    have hlen : o - 6 < (digs j).length + 2 := by
      have := idString_length_eq j
      omega
    by_cases hi : o - 6 < (digs j).length
    · have hX2 : (digs j ++ ['}', '}']).drop (o - 6) =
          (digs j).drop (o - 6) ++ ['}', '}'] := by
        have hz : o - 6 - (digs j).length = 0 := by omega
        rw [List.drop_append_eq_append_drop, hz, List.drop_zero]
      cases hcons : (digs j).drop (o - 6) with
      | nil =>
        have hc := congrArg List.length hcons
        rw [List.length_drop] at hc
        simp only [List.length_nil] at hc
        omega
      | cons c t =>
        have hc : c ∈ digs j := List.mem_of_mem_drop (hcons ▸ List.mem_cons_self c t)
        exact Or.inr ⟨c, t ++ ['}', '}'],
          by rw [hX, hX2, hcons]; simp, (digs_no_brace j c hc).2⟩
    · have hX2 : (digs j ++ ['}', '}']).drop (o - 6) =
          (['}', '}'] : List Char).drop (o - 6 - (digs j).length) := by
        rw [List.drop_append_eq_append_drop, List.drop_eq_nil_of_le (by omega)]
        rfl
      rcases (by omega : o - 6 - (digs j).length = 0 ∨ o - 6 - (digs j).length = 1) with
        he | he
      · rw [he] at hX2
        exact Or.inr ⟨'}', ['}'], by rw [hX, hX2]; rfl, by decide⟩
      · rw [he] at hX2
        exact Or.inr ⟨'}', [], by rw [hX, hX2]; rfl, by decide⟩

/-- A different placeholder string never matches at any position inside
    `idString j` (even allowing the match to run on into `rest`). -/
theorem idString_no_inner {j m : Nat} (hjm : j ≠ m) (rest : List Char) :
    ∀ o, o < (idString j).length →
    (idString m).isPrefixOf ((idString j).drop o ++ rest) = false := by
  intro o ho
  cases hx : (idString m).isPrefixOf ((idString j).drop o ++ rest) with
  | false => rfl
  | true =>
    exfalso
    obtain ⟨u, hu⟩ := (isPrefixOf_iff ..).mp hx
    rcases Nat.eq_zero_or_pos o with rfl | h1
    · simp only [List.drop_zero] at hu
      rw [idString_cons j, idString_cons m] at hu
      simp only [List.cons_append, List.cons.injEq, true_and] at hu
      have hu2 : digs j ++ '}' :: ('}' :: rest) = digs m ++ '}' :: ('}' :: u) := by
        simpa [List.append_assoc] using hu
      have := brace_free_eq (digs j) (digs m) ('}' :: rest) ('}' :: u)
        (fun c hc => (digs_no_brace j c hc).1) (fun c hc => (digs_no_brace m c hc).1) hu2
      exact hjm (digs_inj this.1)
    · rcases idString_drop_shape j o h1 ho with ⟨t, hd⟩ | ⟨c, t, hd, hc⟩
      · rw [hd, idString_cons m] at hu
        simp only [List.cons_append, List.cons.injEq] at hu
        exact absurd hu.2.1 (by decide)
      · rw [hd, idString_cons m] at hu
        simp only [List.cons_append, List.cons.injEq] at hu
        exact hc hu.1

/-- A placeholder string never matches strictly inside a clean text run,
    even running on into a remainder that is empty or starts with a
    whole placeholder. -/
theorem clean_no_inner {s : List Char} (hclean : CleanT s) (m : Nat) {rest : List Char}
    (hrest : rest = [] ∨ ∃ j r2, rest = idString j ++ r2) :
    ∀ o, o < s.length → (idString m).isPrefixOf (s.drop o ++ rest) = false := by
  intro o ho
  cases hx : (idString m).isPrefixOf (s.drop o ++ rest) with
  | false => rfl
  | true =>
    exfalso
    obtain ⟨u, hu⟩ := (isPrefixOf_iff ..).mp hx
    by_cases hlen : (idString m).length ≤ (s.drop o).length
    · have htake : (s.drop o).take (idString m).length = idString m := by
        have h3 := congrArg (List.take (idString m).length) hu
        rwa [List.take_append_eq_append_take, List.take_left,
          Nat.sub_eq_zero_of_le hlen, List.take_zero _, List.append_nil] at h3
      apply hclean m
      have hs : s = s.take o ++ ((s.drop o).take (idString m).length ++
          (s.drop o).drop (idString m).length) := by
        rw [List.take_append_drop, List.take_append_drop]
      rw [htake] at hs
      refine ⟨s.take o, (s.drop o).drop (idString m).length, ?_⟩
      conv_lhs => rw [hs]
      simp [List.append_assoc]
    · push_neg at hlen
      have hl1 : 1 ≤ (s.drop o).length := by
        rw [List.length_drop]; omega
      have hsplit : s.drop o = (idString m).take (s.drop o).length ∧
          rest = (idString m).drop (s.drop o).length ++ u := by
        have h2 : s.drop o ++ rest =
            (idString m).take (s.drop o).length ++
              ((idString m).drop (s.drop o).length ++ u) := by
          rw [← List.append_assoc, List.take_append_drop]
          exact hu
        exact List.append_inj h2 (by rw [List.length_take _ _]; omega)
      rcases hrest with rfl | ⟨j, r2, hr⟩
      · have h5 := List.append_eq_nil.mp hsplit.2.symm
        have h6 := congrArg List.length h5.1
        rw [List.length_drop] at h6
        simp only [List.length_nil] at h6
        omega
      · have h4 := hsplit.2
        rw [hr] at h4
        rcases idString_drop_shape m (s.drop o).length hl1 hlen with ⟨t, hd⟩ | ⟨c, t, hd, hc⟩
        · rw [hd, idString_cons j] at h4
          simp only [List.cons_append, List.cons.injEq] at h4
          exact absurd h4.2.1 (by decide)
        · rw [hd, idString_cons j] at h4
          simp only [List.cons_append, List.cons.injEq] at h4
          exact hc h4.1.symm

/-- A text free of the bare marker `{{tag_` is free of every full
    placeholder string. -/
theorem cleanT_of_no_marker {s : List Char} (h : ¬ Infx marker s) : CleanT s := by
  intro k hk
  apply h
  have hmk : Infx marker (idString k) := ⟨[], digs k ++ ['}', '}'], by simp [idString]⟩
  exact hmk.trans hk

/-! ### One restoration pass over a block decomposition -/

/-- Replacing `{{tag_m}}` in the concatenation of clean text runs and
    placeholders, no two text runs adjacent, replaces exactly the
    `ph m` blocks. -/
theorem pyReplace_blocks (m : Nat) (v : List Char) :
    ∀ L : List Blk, (∀ s, Blk.txt s ∈ L → CleanT s) → NoAdjTxt L →
    pyReplace ((L.map blkStr).flatten) (idString m) v =
      (L.map (blkStr1 m v)).flatten := by
  intro L
  induction L with
  | nil => intro _ _; rfl
  | cons b L' ih =>
    intro hcl hna
    have hna' : NoAdjTxt L' := (List.chain'_cons'.mp hna).2
    have hcl' : ∀ s, Blk.txt s ∈ L' → CleanT s := fun s hs => hcl s (by simp [hs])
    cases b with
    | ph j =>
      simp only [List.map_cons, List.flatten_cons, blkStr]
      by_cases hj : j = m
      · subst hj
        rw [pyReplace_head (idString j) _ v (idString_not_empty j), ih hcl' hna']
        simp [blkStr1]
      · rw [pyReplace_skip (idString m) v (idString j) _ (idString_no_inner hj _),
          ih hcl' hna']
        simp [blkStr1, hj]
    | txt s =>
      simp only [List.map_cons, List.flatten_cons, blkStr]
      have hs : CleanT s := hcl s (by simp)
      have hrest : (L'.map blkStr).flatten = [] ∨
          ∃ j r2, (L'.map blkStr).flatten = idString j ++ r2 := by
        cases L' with
        | nil => exact Or.inl rfl
        | cons b2 L'' =>
          have hrel := (List.chain'_cons'.mp hna).1
          rcases hrel b2 (by simp) with h | h
          · simp [Blk.isPh] at h
          · cases b2 with
            | txt s2 => simp [Blk.isPh] at h
            | ph j => exact Or.inr ⟨j, (L''.map blkStr).flatten, by simp [blkStr]⟩
      rw [pyReplace_skip (idString m) v s _ (clean_no_inner hs m hrest), ih hcl' hna']
      simp [blkStr1]

/-- `toBlks` preserves the concatenation under any text-additive
    rendering. -/
theorem toBlks_flatten (f : Blk → List Char)
    (hf : ∀ a b, f (.txt (a ++ b)) = f (.txt a) ++ f (.txt b)) :
    ∀ L : List Blk, ((toBlks L).map f).flatten = (L.map f).flatten := by
  intro L
  induction L with
  | nil => rfl
  | cons b r ih =>
    cases b with
    | ph j => simp only [toBlks, List.map_cons, List.flatten_cons, ih]
    | txt s =>
      simp only [toBlks, List.map_cons, List.flatten_cons]
      cases h : toBlks r with
      | nil =>
        rw [h] at ih
        simp only [List.map_nil, List.flatten_nil] at ih
        simp [consTxt, ← ih]
      | cons b2 bs =>
        cases b2 with
        | txt s2 =>
          rw [h] at ih
          simp only [List.map_cons, List.flatten_cons] at ih
          simp only [consTxt, List.map_cons, List.flatten_cons, hf, List.append_assoc, ih]
        | ph j =>
          rw [h] at ih
          simp only [consTxt, List.map_cons, List.flatten_cons] at ih ⊢
          rw [ih]

/-- `consTxt` keeps text runs non-adjacent. -/
theorem consTxt_noAdj (s : List Char) :
    ∀ bs : List Blk, NoAdjTxt bs → NoAdjTxt (consTxt s bs) := by
  intro bs h
  cases bs with
  | nil => simp [consTxt, NoAdjTxt]
  | cons b2 bs' =>
    cases b2 with
    | txt s2 =>
      simp only [consTxt]
      unfold NoAdjTxt at h ⊢
      rw [List.chain'_cons'] at h ⊢
      refine ⟨fun y hy => ?_, h.2⟩
      rcases h.1 y hy with hh | hh
      · simp [Blk.isPh] at hh
      · exact Or.inr hh
    | ph j =>
      simp only [consTxt]
      unfold NoAdjTxt at h ⊢
      rw [List.chain'_cons']
      refine ⟨fun y hy => ?_, h⟩
      simp only [List.head?_cons, Option.mem_def, Option.some.injEq] at hy
      rw [← hy]
      exact Or.inr rfl

/-- After merging, no two text runs are adjacent. -/
theorem toBlks_noAdj : ∀ L : List Blk, NoAdjTxt (toBlks L) := by
  intro L
  induction L with
  | nil => simp [toBlks, NoAdjTxt]
  | cons b r ih =>
    cases b with
    | ph j =>
      simp only [toBlks]
      unfold NoAdjTxt at ih ⊢
      rw [List.chain'_cons']
      exact ⟨fun y _ => Or.inl rfl, ih⟩
    | txt s =>
      simp only [toBlks]
      exact consTxt_noAdj s (toBlks r) ih

/-- Every merged text run of `toBlks L` is an infix of the original
    concatenation of `L` under `origBlk g`; the run at the head is a
    prefix of it. -/
theorem toBlks_txt_infx (g : Nat → List Char) : ∀ L : List Blk,
    (∀ s bs, toBlks L = Blk.txt s :: bs →
      ∃ y, (L.map (origBlk g)).flatten = s ++ y) ∧
    (∀ s, Blk.txt s ∈ toBlks L → Infx s ((L.map (origBlk g)).flatten)) := by
  intro L
  induction L with
  | nil =>
    constructor
    · intro s bs h; simp [toBlks] at h
    · intro s h; simp [toBlks] at h
  | cons b r ih =>
    cases b with
    | ph j =>
      constructor
      · intro s bs h
        simp only [toBlks, List.cons.injEq] at h
        exact absurd h.1 (by simp)
      · intro s h
        simp only [toBlks, List.mem_cons] at h
        rcases h with h | h
        · exact absurd h (by simp)
        · simp only [List.map_cons, List.flatten_cons, origBlk]
          exact (ih.2 s h).of_append_right
    | txt s0 =>
      cases h : toBlks r with
      | nil =>
        constructor
        · intro s bs hcons
          simp only [toBlks, h, consTxt, List.cons.injEq, Blk.txt.injEq] at hcons
          rcases hcons with ⟨rfl, rfl⟩
          exact ⟨(r.map (origBlk g)).flatten, by simp [origBlk]⟩
        · intro s hmem
          simp only [toBlks, h, consTxt, List.mem_cons, List.not_mem_nil, or_false,
            Blk.txt.injEq] at hmem
          subst hmem
          exact ⟨[], (r.map (origBlk g)).flatten, by simp [origBlk]⟩
      | cons b2 bs =>
        cases b2 with
        | txt s2 =>
          obtain ⟨y, hy⟩ := ih.1 s2 bs h
          constructor
          · intro s bs' hcons
            simp only [toBlks, h, consTxt, List.cons.injEq, Blk.txt.injEq] at hcons
            obtain ⟨h1, _⟩ := hcons
            refine ⟨y, ?_⟩
            simp only [List.map_cons, List.flatten_cons, origBlk]
            rw [hy, ← h1]
            simp [List.append_assoc]
          · intro s hmem
            simp only [toBlks, h, consTxt, List.mem_cons] at hmem
            rcases hmem with hmem | hmem
            · rw [Blk.txt.injEq] at hmem
              subst hmem
              refine ⟨[], y, ?_⟩
              simp only [List.map_cons, List.flatten_cons, origBlk]
              rw [hy]
              simp [List.append_assoc]
            · have hin : Blk.txt s ∈ toBlks r := by
                rw [h]; exact List.mem_cons_of_mem _ hmem
              have := ih.2 s hin
              simp only [List.map_cons, List.flatten_cons, origBlk]
              exact this.of_append_right
        | ph j =>
          constructor
          · intro s bs' hcons
            simp only [toBlks, h, consTxt, List.cons.injEq, Blk.txt.injEq] at hcons
            obtain ⟨h1, _⟩ := hcons
            exact ⟨(r.map (origBlk g)).flatten, by simp [origBlk, h1]⟩
          · intro s hmem
            simp only [toBlks, h, consTxt, List.mem_cons] at hmem
            rcases hmem with hmem | hmem
            · rw [Blk.txt.injEq] at hmem
              subst hmem
              exact ⟨[], (r.map (origBlk g)).flatten, by simp [origBlk]⟩
            · rcases hmem with hmem | hmem
              · exact absurd hmem (by simp)
              · have hin : Blk.txt s ∈ toBlks r := by
                  rw [h]; exact List.mem_cons_of_mem _ hmem
                have := ih.2 s hin
                simp only [List.map_cons, List.flatten_cons, origBlk]
                exact this.of_append_right

/-! ### The scan consumes its input exactly -/

theorem matchAngle_eq {s m rest : List Char} (h : matchAngle s = some (m, rest)) :
    m ≠ [] ∧ m ++ rest = s := by
  simp only [matchAngle] at h
  by_cases h1 : s.take 1 = ['<']
  swap
  · rw [if_neg h1] at h; exact absurd h (by simp)
  rw [if_pos h1] at h
  by_cases h2 : ((s.drop 1).dropWhile (fun c => c ≠ '>')).take 1 = ['>']
  swap
  · rw [if_neg h2] at h; exact absurd h (by simp)
  rw [if_pos h2] at h
  by_cases h3 : ((s.drop 1).takeWhile (fun c => c ≠ '>')).isEmpty = true
  · rw [if_pos h3] at h; exact absurd h (by simp)
  rw [if_neg h3] at h
  simp only [Option.some.injEq, Prod.mk.injEq] at h
  obtain ⟨hm, hr⟩ := h
  refine ⟨by rw [← hm]; simp, ?_⟩
  rw [← hm, ← hr]
  have hs : s = '<' :: s.drop 1 := by
    have hx := List.take_append_drop 1 s
    rw [h1] at hx
    exact hx.symm
  have hsplit : s.drop 1 = (s.drop 1).takeWhile (fun c => c ≠ '>') ++
      (s.drop 1).dropWhile (fun c => c ≠ '>') := (List.takeWhile_append_dropWhile ..).symm
  have hr2 : (s.drop 1).dropWhile (fun c => c ≠ '>') =
      '>' :: ((s.drop 1).dropWhile (fun c => c ≠ '>')).drop 1 := by
    have hx := List.take_append_drop 1 ((s.drop 1).dropWhile (fun c => c ≠ '>'))
    rw [h2] at hx
    exact hx.symm
  conv_rhs => rw [hs, hsplit, hr2]
  simp [List.append_assoc]

theorem matchNl_eq {s m rest : List Char} (h : matchNl s = some (m, rest)) :
    m ≠ [] ∧ m ++ rest = s := by
  simp only [matchNl] at h
  by_cases h1 : s.take 1 = ['\n']
  swap
  · rw [if_neg h1] at h; exact absurd h (by simp)
  rw [if_pos h1] at h
  simp only [Option.some.injEq, Prod.mk.injEq] at h
  obtain ⟨hm, hr⟩ := h
  refine ⟨by rw [← hm]; simp, ?_⟩
  rw [← hm, ← hr]
  have hx := List.take_append_drop 1 s
  rw [h1] at hx
  exact hx

theorem matchQuote_eq {s m rest : List Char} (h : matchQuote s = some (m, rest)) :
    m ≠ [] ∧ m ++ rest = s := by
  simp only [matchQuote] at h
  by_cases h1 : s.take 1 = ['"']
  swap
  · rw [if_neg h1] at h; exact absurd h (by simp)
  rw [if_pos h1] at h
  simp only [Option.some.injEq, Prod.mk.injEq] at h
  obtain ⟨hm, hr⟩ := h
  refine ⟨by rw [← hm]; simp, ?_⟩
  rw [← hm, ← hr]
  have hx := List.take_append_drop 1 s
  rw [h1] at hx
  exact hx

theorem matchNum_eq {prev : Option Char} {s m rest : List Char}
    (h : matchNum prev s = some (m, rest)) : m ≠ [] ∧ m ++ rest = s := by
  simp only [matchNum] at h
  by_cases h0 : (!boundaryBefore prev) = true
  · rw [if_pos h0] at h; exact absurd h (by simp)
  rw [if_neg h0] at h
  by_cases h1 : (s.takeWhile Char.isDigit).isEmpty = true
  · rw [if_pos h1] at h; exact absurd h (by simp)
  rw [if_neg h1] at h
  by_cases h2 : (s.dropWhile Char.isDigit).take 3 = ['|', '|', '|']
  swap
  · rw [if_neg h2] at h; exact absurd h (by simp)
  rw [if_pos h2] at h
  by_cases h3 : (((s.dropWhile Char.isDigit).drop 3).takeWhile Char.isDigit).isEmpty = true
  · rw [if_pos h3] at h; exact absurd h (by simp)
  rw [if_neg h3] at h
  have hd1 : s = s.takeWhile Char.isDigit ++ s.dropWhile Char.isDigit :=
    (List.takeWhile_append_dropWhile ..).symm
  have hr1 : s.dropWhile Char.isDigit =
      '|' :: '|' :: '|' :: (s.dropWhile Char.isDigit).drop 3 := by
    have hx := List.take_append_drop 3 (s.dropWhile Char.isDigit)
    rw [h2] at hx
    exact hx.symm
  have hr2 : (s.dropWhile Char.isDigit).drop 3 =
      ((s.dropWhile Char.isDigit).drop 3).takeWhile Char.isDigit ++
      ((s.dropWhile Char.isDigit).drop 3).dropWhile Char.isDigit :=
    (List.takeWhile_append_dropWhile ..).symm
  have hne : s.takeWhile Char.isDigit ≠ [] := by
    intro hnil
    rw [hnil] at h1
    exact h1 rfl
  by_cases h4 : boundaryAfter (((s.dropWhile Char.isDigit).drop 3).dropWhile Char.isDigit)
      = true
  · rw [if_pos h4] at h
    simp only [Option.some.injEq, Prod.mk.injEq] at h
    obtain ⟨hm, hr⟩ := h
    refine ⟨by rw [← hm]; simp [hne], ?_⟩
    rw [← hm, ← hr]
    conv_rhs => rw [hd1, hr1, hr2]
    simp [List.append_assoc]
  · rw [if_neg h4] at h
    simp only [Option.some.injEq, Prod.mk.injEq] at h
    obtain ⟨hm, hr⟩ := h
    refine ⟨by rw [← hm]; simp [hne], ?_⟩
    rw [← hm, ← hr]
    conv_rhs => rw [hd1, hr1, hr2]
    have hr3 : ((s.dropWhile Char.isDigit).drop 3).dropWhile Char.isDigit =
        (((s.dropWhile Char.isDigit).drop 3).dropWhile Char.isDigit).takeWhile isWordChar ++
        (((s.dropWhile Char.isDigit).drop 3).dropWhile Char.isDigit).dropWhile isWordChar :=
      (List.takeWhile_append_dropWhile ..).symm
    conv_rhs => rw [hr3]
    simp [List.append_assoc]

theorem tryMatch_eq {prev : Option Char} {s m rest : List Char}
    (h : tryMatch prev s = some (m, rest)) : m ≠ [] ∧ m ++ rest = s := by
  unfold tryMatch at h
  cases ha : matchAngle s with
  | some r =>
    simp only [ha, Option.some.injEq] at h
    subst h
    exact matchAngle_eq ha
  | none =>
    simp only [ha] at h
    cases hb : matchNl s with
    | some r =>
      simp only [hb, Option.some.injEq] at h
      subst h
      exact matchNl_eq hb
    | none =>
      simp only [hb] at h
      cases hc : matchQuote s with
      | some r =>
        simp only [hc, Option.some.injEq] at h
        subst h
        exact matchQuote_eq hc
      | none =>
        simp only [hc] at h
        exact matchNum_eq h

/-- The concatenation of the scanned pieces is the input. -/
theorem scan_join : ∀ (fuel : Nat) (prev : Option Char) (s : List Char),
    s.length ≤ fuel → ((scan fuel prev s).map RawPiece.str).flatten = s := by
  intro fuel
  induction fuel with
  | zero =>
    intro prev s hf
    have hs : s = [] := List.length_eq_zero.mp (by omega)
    subst hs
    rfl
  | succ f ih =>
    intro prev s hf
    cases s with
    | nil => rfl
    | cons c cs =>
      cases ht : tryMatch prev (c :: cs) with
      | none =>
        simp only [scan, ht, List.map_cons, List.flatten_cons, RawPiece.str]
        rw [ih (some c) cs (by simp only [List.length_cons] at hf; omega)]
        rfl
      | some r =>
        obtain ⟨mm, rr⟩ := r
        have htm := tryMatch_eq ht
        have hmm : 1 ≤ mm.length := by
          cases hx : mm with
          | nil => exact absurd hx htm.1
          | cons a l => simp
        have hrr : rr.length ≤ f := by
          have hlen := congrArg List.length htm.2
          simp only [List.length_append, List.length_cons] at hlen
          simp only [List.length_cons] at hf
          omega
        simp only [scan, ht, List.map_cons, List.flatten_cons, RawPiece.str]
        rw [ih _ rr hrr, htm.2]

/-! ### Dictionary bookkeeping: `extractGo` through value lists -/

theorem findIdxV_lt (s : List Char) : ∀ (vs : List (List Char)) (i : Nat),
    findIdxV s vs = some i → i < vs.length := by
  intro vs
  induction vs with
  | nil => intro i h; simp [findIdxV] at h
  | cons v vs' ih =>
    intro i h
    simp only [findIdxV] at h
    by_cases hv : v = s
    · rw [if_pos hv] at h
      simp only [Option.some.injEq] at h
      subst h
      simp
    · rw [if_neg hv] at h
      cases hf : findIdxV s vs' with
      | none => rw [hf] at h; simp at h
      | some i' =>
        rw [hf] at h
        simp only [Option.map_some', Option.some.injEq] at h
        subst h
        have := ih i' hf
        simp only [List.length_cons]
        omega

theorem findIdxV_getD (s : List Char) : ∀ (vs : List (List Char)) (i : Nat),
    findIdxV s vs = some i → vs.getD i [] = s := by
  intro vs
  induction vs with
  | nil => intro i h; simp [findIdxV] at h
  | cons v vs' ih =>
    intro i h
    simp only [findIdxV] at h
    by_cases hv : v = s
    · rw [if_pos hv] at h
      simp only [Option.some.injEq] at h
      subst h
      simpa using hv
    · rw [if_neg hv] at h
      cases hf : findIdxV s vs' with
      | none => rw [hf] at h; simp at h
      | some i' =>
        rw [hf] at h
        simp only [Option.map_some', Option.some.injEq] at h
        subst h
        simpa using ih i' hf

theorem enumFrom_find (s : List Char) : ∀ (vs : List (List Char)) (k : Nat),
    (enumFrom k vs).find? (fun p => p.2 == s) =
      (findIdxV s vs).map (fun i => (idString (k + i), s)) := by
  intro vs
  induction vs with
  | nil => intro k; rfl
  | cons v vs' ih =>
    intro k
    simp only [enumFrom, findIdxV]
    by_cases hv : v = s
    · rw [List.find?_cons_of_pos _ (by simpa using hv), if_pos hv]
      simp [hv]
    · rw [List.find?_cons_of_neg _ (by simpa using hv), if_neg hv, ih (k + 1)]
      cases hf : findIdxV s vs' with
      | none => simp
      | some i =>
        simp only [Option.map_some']
        have heq : k + 1 + i = k + (i + 1) := by omega
        rw [heq]

theorem enumFrom_append_one : ∀ (vs : List (List Char)) (k : Nat) (s : List Char),
    enumFrom k (vs ++ [s]) = enumFrom k vs ++ [(idString (k + vs.length), s)] := by
  intro vs
  induction vs with
  | nil => intro k s; simp [enumFrom]
  | cons v vs' ih =>
    intro k s
    have heq : k + 1 + vs'.length = k + (vs'.length + 1) := by omega
    simp only [List.cons_append, enumFrom, List.length_cons, List.append_eq]
    rw [ih (k + 1) s, heq]

/-- `extractGo` over the dictionary built from value list `vs`, counter
    in step, equals the piece/value-list extraction. -/
theorem extractGo_pieces : ∀ (r : List RawPiece) (vs : List (List Char)),
    extractGo r (enumFrom 1 vs) (vs.length + 1) =
      (((extractPieces r vs).1.map phRender).flatten,
        enumFrom 1 (extractPieces r vs).2) := by
  intro r
  induction r with
  | nil => intro vs; simp [extractGo, extractPieces]
  | cons p r' ih =>
    intro vs
    cases p with
    | ch c =>
      simp only [extractGo, extractPieces, ih vs, List.map_cons, List.flatten_cons,
        phRender, List.cons_append, List.nil_append]
    | span s =>
      have hfind := enumFrom_find s vs 1
      cases hf : findIdxV s vs with
      | some i =>
        rw [hf] at hfind
        simp only [Option.map_some'] at hfind
        have heq : 1 + i = i + 1 := by omega
        rw [heq] at hfind
        simp only [extractGo, extractPieces, hf, hfind, ih vs, List.map_cons,
          List.flatten_cons, phRender]
      | none =>
        rw [hf] at hfind
        simp only [Option.map_none'] at hfind
        have hins : enumFrom 1 vs ++ [(idString (vs.length + 1), s)] =
            enumFrom 1 (vs ++ [s]) := by
          rw [enumFrom_append_one vs 1 s]
          have heq : 1 + vs.length = vs.length + 1 := by omega
          rw [heq]
        have ihx := ih (vs ++ [s])
        simp only [List.length_append, List.length_cons, List.length_nil] at ihx
        simp only [extractGo, extractPieces, hf, hfind, hins, List.map_cons,
          List.flatten_cons, phRender]
        rw [ihx]

theorem extractPieces_vs_ext : ∀ (r : List RawPiece) (vs : List (List Char)),
    ∃ ws, (extractPieces r vs).2 = vs ++ ws := by
  intro r
  induction r with
  | nil => intro vs; exact ⟨[], by simp [extractPieces]⟩
  | cons p r' ih =>
    intro vs
    cases p with
    | ch c => simpa [extractPieces] using ih vs
    | span s =>
      cases hf : findIdxV s vs with
      | some i => simpa [extractPieces, hf] using ih vs
      | none =>
        obtain ⟨ws, hws⟩ := ih (vs ++ [s])
        exact ⟨[s] ++ ws, by simp [extractPieces, hf, hws]⟩

/-- Every placeholder id the extraction emits indexes into the final
    value list (ids start at 1). -/
theorem extractPieces_ids : ∀ (r : List RawPiece) (vs : List (List Char)) (j : Nat),
    Piece.ph j ∈ (extractPieces r vs).1 →
    1 ≤ j ∧ j ≤ (extractPieces r vs).2.length := by
  intro r
  induction r with
  | nil => intro vs j h; simp [extractPieces] at h
  | cons p r' ih =>
    intro vs j h
    cases p with
    | ch c =>
      simp only [extractPieces, List.mem_cons] at h
      rcases h with h | h
      · exact absurd h (by simp)
      · simpa [extractPieces] using ih vs j h
    | span s =>
      cases hf : findIdxV s vs with
      | some i =>
        simp only [extractPieces, hf, List.mem_cons] at h
        simp only [extractPieces, hf]
        rcases h with h | h
        · rw [Piece.ph.injEq] at h
          subst h
          obtain ⟨ws, hws⟩ := extractPieces_vs_ext r' vs
          have hi := findIdxV_lt s vs i hf
          rw [hws]
          simp only [List.length_append]
          omega
        · exact ih vs j h
      | none =>
        simp only [extractPieces, hf, List.mem_cons] at h
        simp only [extractPieces, hf]
        rcases h with h | h
        · rw [Piece.ph.injEq] at h
          subst h
          obtain ⟨ws, hws⟩ := extractPieces_vs_ext r' (vs ++ [s])
          rw [hws]
          simp only [List.length_append, List.length_cons, List.length_nil]
          omega
        · exact ih (vs ++ [s]) j h

/-- Reading every piece through its original span reconstitutes the
    scanned input. -/
theorem extractPieces_orig : ∀ (r : List RawPiece) (vs : List (List Char)),
    ((extractPieces r vs).1.map (origStr (extractPieces r vs).2)).flatten =
      (r.map RawPiece.str).flatten := by
  intro r
  induction r with
  | nil => intro vs; rfl
  | cons p r' ih =>
    intro vs
    cases p with
    | ch c =>
      simp only [extractPieces, List.map_cons, List.flatten_cons, origStr,
        RawPiece.str, ih vs]
    | span s =>
      cases hf : findIdxV s vs with
      | some i =>
        obtain ⟨ws, hws⟩ := extractPieces_vs_ext r' vs
        have hi := findIdxV_lt s vs i hf
        have hgd := findIdxV_getD s vs i hf
        simp only [extractPieces, hf, List.map_cons, List.flatten_cons, origStr,
          RawPiece.str, ih vs]
        congr 1
        rw [hws]
        simp only [Nat.add_sub_cancel]
        rw [List.getD_eq_getElem?_getD, List.getElem?_append_left hi,
          ← List.getD_eq_getElem?_getD]
        exact hgd
      | none =>
        obtain ⟨ws, hws⟩ := extractPieces_vs_ext r' (vs ++ [s])
        simp only [extractPieces, hf, List.map_cons, List.flatten_cons, origStr,
          RawPiece.str, ih (vs ++ [s])]
        congr 1
        rw [hws]
        simp only [Nat.add_sub_cancel]
        have h1 : ((vs ++ [s]) ++ ws)[vs.length]? = some s := by
          rw [List.getElem?_append_left (by simp),
            List.getElem?_append_right (le_refl _)]
          simp
        rw [List.getD_eq_getElem?_getD, h1]
        rfl

/-! ### The restore fold in ascending id order -/

theorem drop_cons_elim : ∀ (l : List (List Char)) (j : Nat) (v : List Char)
    (t : List (List Char)), l.drop j = v :: t →
    l.getD j [] = v ∧ l.drop (j + 1) = t := by
  intro l j
  induction j generalizing l with
  | zero =>
    intro v t h
    simp only [List.drop_zero] at h
    subst h
    simp
  | succ j ih =>
    intro v t h
    cases l with
    | nil => simp at h
    | cons x l' =>
      simp only [List.drop_succ_cons] at h
      simpa [List.getD_cons_succ, List.drop_succ_cons] using ih l' v t h

theorem sortK_sorted (key : (List Char × List Char) → Nat) :
    ∀ l, List.Pairwise (fun a b => key a < key b) l → sortK key l = l := by
  intro l
  induction l with
  | nil => intro _; rfl
  | cons x xs ih =>
    intro h
    rw [List.pairwise_cons] at h
    simp only [sortK, ih h.2]
    cases xs with
    | nil => rfl
    | cons y ys =>
      have hk : key x ≤ key y := le_of_lt (h.1 y (by simp))
      simp [insSorted, hk]

theorem enumFrom_keys : ∀ (vs : List (List Char)) (k : Nat)
    (p : List Char × List Char), p ∈ enumFrom k vs →
    ∃ j, k ≤ j ∧ p.1 = idString j := by
  intro vs
  induction vs with
  | nil => intro k p h; simp [enumFrom] at h
  | cons v vs' ih =>
    intro k p h
    simp only [enumFrom, List.mem_cons] at h
    rcases h with rfl | h
    · exact ⟨k, le_rfl, rfl⟩
    · obtain ⟨j, hj, hp⟩ := ih (k + 1) p h
      exact ⟨j, by omega, hp⟩

theorem dropWhile_append_all (p : Char → Bool) : ∀ (a b : List Char),
    (∀ c ∈ a, p c = true) → (a ++ b).dropWhile p = b.dropWhile p := by
  intro a
  induction a with
  | nil => intro b _; rfl
  | cons c a' ih =>
    intro b h
    have hc := h c (by simp)
    simp only [List.cons_append, List.dropWhile_cons, hc, if_true]
    exact ih b (fun x hx => h x (by simp [hx]))

/-- The numeric key of the placeholder string `{{tag_k}}` is `k`. -/
theorem numOfId_idString (k : Nat) : numOfId (idString k) = k := by
  unfold numOfId
  have h1 : idString k = marker ++ (digs k ++ ['}', '}']) := by rw [idString_cons]; rfl
  rw [h1, dropWhile_append_all _ marker _ (by decide)]
  have h2 : (digs k ++ ['}', '}']).dropWhile (fun c => !c.isDigit) =
      digs k ++ ['}', '}'] := by
    cases hd : digs k with
    | nil => exact absurd hd (digs_ne_nil k)
    | cons c cs =>
      have hc : c.isDigit = true := digs_isDigit k c (by rw [hd]; simp)
      simp [List.dropWhile_cons, hc]
  rw [h2, (takeWhile_digits_append (digs k) ['}', '}'] (digs_isDigit k) (by decide)).1]
  exact valD_digs k

theorem enumFrom_pairwise : ∀ (vs : List (List Char)) (k : Nat),
    List.Pairwise (fun a b => numOfId a.1 < numOfId b.1) (enumFrom k vs) := by
  intro vs
  induction vs with
  | nil => intro k; simp [enumFrom]
  | cons v vs' ih =>
    intro k
    simp only [enumFrom]
    rw [List.pairwise_cons]
    refine ⟨fun q hq => ?_, ih (k + 1)⟩
    obtain ⟨j, hj, hq1⟩ := enumFrom_keys vs' (k + 1) q hq
    rw [hq1]
    simp only [numOfId_idString]
    omega

/-- One `text.replace` pass of the restore loop: substituting
    `{{tag_(k+1)}}` moves the render stage from `k` to `k + 1`,
    provided the original text carries no bare `{{tag_` marker. -/
theorem restore_step (vs : List (List Char)) (pieces : List Piece) (k : Nat)
    (hcl : ¬ Infx marker ((pieces.map (origStr vs)).flatten)) :
    pyReplace ((pieces.map (renderP vs k)).flatten) (idString (k + 1)) (vs.getD k []) =
      (pieces.map (renderP vs (k + 1))).flatten := by
  set L := pieces.map (toSub vs k) with hL
  have hadd1 : ∀ a b : List Char,
      blkStr (.txt (a ++ b)) = blkStr (.txt a) ++ blkStr (.txt b) := fun a b => rfl
  have hadd2 : ∀ a b : List Char,
      blkStr1 (k + 1) (vs.getD k []) (.txt (a ++ b)) =
        blkStr1 (k + 1) (vs.getD k []) (.txt a) ++
          blkStr1 (k + 1) (vs.getD k []) (.txt b) := fun a b => rfl
  have hren : L.map blkStr = pieces.map (renderP vs k) := by
    rw [hL, List.map_map]
    apply List.map_congr_left
    intro p _
    cases p with
    | lit s => rfl
    | ph j =>
      simp only [Function.comp_apply, toSub, renderP]
      by_cases hj : j ≤ k
      · rw [if_pos hj, if_pos hj]
        rfl
      · rw [if_neg hj, if_neg hj]
        rfl
  have horg : L.map (origBlk (fun j => vs.getD (j - 1) [])) =
      pieces.map (origStr vs) := by
    rw [hL, List.map_map]
    apply List.map_congr_left
    intro p _
    cases p with
    | lit s => rfl
    | ph j =>
      simp only [Function.comp_apply, toSub, origStr]
      by_cases hj : j ≤ k
      · rw [if_pos hj]
        rfl
      · rw [if_neg hj]
        rfl
  have hsub : L.map (blkStr1 (k + 1) (vs.getD k [])) =
      pieces.map (renderP vs (k + 1)) := by
    rw [hL, List.map_map]
    apply List.map_congr_left
    intro p _
    cases p with
    | lit s => rfl
    | ph j =>
      simp only [Function.comp_apply, toSub, renderP]
      by_cases hj : j ≤ k
      · rw [if_pos hj, if_pos (by omega : j ≤ k + 1)]
        rfl
      · rw [if_neg hj]
        simp only [blkStr1]
        by_cases hjk : j = k + 1
        · subst hjk
          rw [if_pos rfl, if_pos (by omega : k + 1 ≤ k + 1)]
          congr 1
        · rw [if_neg hjk, if_neg (by omega : ¬ j ≤ k + 1)]
  calc pyReplace ((pieces.map (renderP vs k)).flatten) (idString (k + 1)) (vs.getD k [])
      = pyReplace (((toBlks L).map blkStr).flatten) (idString (k + 1)) (vs.getD k []) := by
        rw [toBlks_flatten blkStr hadd1 L, hren]
    _ = ((toBlks L).map (blkStr1 (k + 1) (vs.getD k []))).flatten := by
        apply pyReplace_blocks
        · intro s hs
          apply cleanT_of_no_marker
          intro hmk
          apply hcl
          have hinf := (toBlks_txt_infx (fun j => vs.getD (j - 1) []) L).2 s hs
          rw [horg] at hinf
          exact hmk.trans hinf
        · exact toBlks_noAdj L
    _ = (L.map (blkStr1 (k + 1) (vs.getD k []))).flatten :=
        toBlks_flatten _ hadd2 L
    _ = (pieces.map (renderP vs (k + 1))).flatten := by rw [hsub]

/-- Folding the remaining ascending-id substitutions from stage `j`
    substitutes everything. -/
theorem restore_fold (vs : List (List Char)) (pieces : List Piece)
    (hcl : ¬ Infx marker ((pieces.map (origStr vs)).flatten))
    (hid : ∀ j0, Piece.ph j0 ∈ pieces → j0 ≤ vs.length) :
    ∀ (sub : List (List Char)) (j : Nat), vs.drop j = sub →
    (enumFrom (j + 1) sub).foldl (fun t p => pyReplace t p.1 p.2)
        ((pieces.map (renderP vs j)).flatten) =
      (pieces.map (renderP vs vs.length)).flatten := by
  intro sub
  induction sub with
  | nil =>
    intro j hj
    simp only [enumFrom, List.foldl_nil]
    have hlen : vs.length ≤ j := by
      have hx := congrArg List.length hj
      rw [List.length_drop] at hx
      simp only [List.length_nil] at hx
      omega
    congr 1
    apply List.map_congr_left
    intro p hp
    cases p with
    | lit s => rfl
    | ph j0 =>
      have h0 := hid j0 hp
      simp only [renderP]
      rw [if_pos (by omega), if_pos (by omega)]
  | cons v sub' ih =>
    intro j hj
    obtain ⟨hget, hdrop⟩ := drop_cons_elim vs j v sub' hj
    have hstep : pyReplace ((pieces.map (renderP vs j)).flatten) (idString (j + 1)) v =
        (pieces.map (renderP vs (j + 1))).flatten := by
      rw [← hget]
      exact restore_step vs pieces j hcl
    show (enumFrom (j + 1 + 1) sub').foldl (fun t p => pyReplace t p.1 p.2)
        (pyReplace ((pieces.map (renderP vs j)).flatten) (idString (j + 1)) v) =
      (pieces.map (renderP vs vs.length)).flatten
    rw [hstep]
    exact ih (j + 1) hdrop

/-- **C1** (amended): the tag round-trip
    `restore_img_tags (extract_html_tags t).1 (extract_html_tags t).2 = t`
    holds for every input text in which the placeholder marker `{{tag_`
    does not occur (the unrestricted claim over all supported span types
    fails, see `tag_roundtrip_counterexample`: a bracket span may contain
    a placeholder-shaped substring, which restoration then rewrites). -/
theorem tag_roundtrip_amended (t : List Char) (hcl : ¬ Infx marker t) :
    restore_img_tags (extract_html_tags t).1 (extract_html_tags t).2 = t := by
  have hcorr := extractGo_pieces (scan t.length none t) []
  have horig := extractPieces_orig (scan t.length none t) []
  rw [scan_join t.length none t le_rfl] at horig
  set ps := (extractPieces (scan t.length none t) []).1 with hps
  set vs := (extractPieces (scan t.length none t) []).2 with hvs
  have hext : extract_html_tags t = ((ps.map phRender).flatten, enumFrom 1 vs) := by
    unfold extract_html_tags
    simpa [enumFrom] using hcorr
  have hid : ∀ j0, Piece.ph j0 ∈ ps → 1 ≤ j0 ∧ j0 ≤ vs.length :=
    fun j0 h => extractPieces_ids (scan t.length none t) [] j0 h
  have hclJ : ¬ Infx marker ((ps.map (origStr vs)).flatten) := by
    rw [horig]; exact hcl
  have hmask : (ps.map phRender).flatten = (ps.map (renderP vs 0)).flatten := by
    congr 1
    apply List.map_congr_left
    intro p hp
    cases p with
    | lit s => rfl
    | ph j0 =>
      have h1 := (hid j0 hp).1
      simp only [phRender, renderP]
      rw [if_neg (by omega)]
  rw [hext]
  show (sortK (fun p => numOfId p.1) (enumFrom 1 vs)).foldl
      (fun t p => pyReplace t p.1 p.2) ((ps.map phRender).flatten) = t
  rw [sortK_sorted _ _ (enumFrom_pairwise vs 1), hmask]
  have hfold := restore_fold vs ps hclJ (fun j0 h => (hid j0 h).2) vs 0 (by simp)
  simp only [Nat.zero_add] at hfold
  rw [hfold, ← horig]
  congr 1
  apply List.map_congr_left
  intro p hp
  cases p with
  | lit s => rfl
  | ph j0 =>
    have h2 := (hid j0 hp).2
    simp only [renderP, origStr]
    rw [if_pos h2]

/-- **C1 amended, witness**: the theorem applied to the concrete
    scenario input `"Hello <b>world</b>\n"`, which contains no `{{tag_`
    marker. -/
theorem tag_roundtrip_amended_witness :
    containsB marker helloText = false ∧
      restore_img_tags (extract_html_tags helloText).1
        (extract_html_tags helloText).2 = helloText :=
  ⟨by decide, tag_roundtrip_amended helloText (fun h => by
    have hb := (containsB_iff marker helloText).mpr h
    rw [show containsB marker helloText = false from by decide] at hb
    exact Bool.false_ne_true hb)⟩

end AiTranslator
